import Mathlib

/-!
Verification of the lead-mode solver and scattering assembler of the
Kwant scattering-problem notebook.

The notebook derives, for a semi-infinite periodic lead with unit-cell
Hamiltonian H_l, inter-cell hopping V_l and energy E:

* the quadratic eigenvalue relation V_l φ + λ (H_l − E) φ + λ² V_l† φ = 0
  for Bloch modes ψ_n = λⁿ φ;
* its linearization as the generalized eigenvalue problem
  [[H_l − E, V_l†], [1, 0]] (φ, ξ) = λ⁻¹ [[−V_l, 0], [0, 1]] (φ, ξ);
* the mode velocity v = i φ† (λ V_l† − λ⁻¹ V_l) φ, used for
  classification (sign) and unit-current normalization (|v| = 1);
* the stabilized standard eigenproblem for invertible V_l
  (factorization V_l = A B† with A = V_l / √‖V_l‖, B = √‖V_l‖);
* the stabilized (generalized) eigenproblem for singular V_l
  (SVD factorization, shifted operator H̄_l = H_l − E + iAA† + iBB†);
* the scattering linear system, its stabilized form obtained by
  substituting V_l = A B† and applying a left inverse of A, and the
  scattering matrix S as the propagating sub-block of Q₊.

All of these are embedded below over arbitrary finite index types, and
the equivalences and invariants stated in the design document are proved
about them.
-/

namespace KwantScattering

open Matrix Complex

variable {ν σ ρ : Type*}

/-- The defining quadratic eigenvalue relation of a lead Bloch mode
(λ, φ): V_l φ + λ (H_l − E) φ + λ² V_l† φ = 0. -/
def quadRel [Fintype ν] [DecidableEq ν] (H V : Matrix ν ν ℂ) (E : ℝ)
    (lam : ℂ) (φ : ν → ℂ) : Prop :=
  V *ᵥ φ + lam • ((H - (E : ℂ) • 1) *ᵥ φ) + lam ^ 2 • (Vᴴ *ᵥ φ) = 0

/-- The linearized generalized eigenvalue problem in (φ, ξ):
[[H_l − E, V_l†], [1, 0]] (φ, ξ) = λ⁻¹ [[−V_l, 0], [0, 1]] (φ, ξ). -/
def modeGEVP [Fintype ν] [DecidableEq ν] (H V : Matrix ν ν ℂ) (E : ℝ)
    (lam : ℂ) (φ ξ : ν → ℂ) : Prop :=
  fromBlocks (H - (E : ℂ) • 1) Vᴴ (1 : Matrix ν ν ℂ) (0 : Matrix ν ν ℂ)
      *ᵥ Sum.elim φ ξ
    = lam⁻¹ • (fromBlocks (-V) (0 : Matrix ν ν ℂ) (0 : Matrix ν ν ℂ)
      (1 : Matrix ν ν ℂ) *ᵥ Sum.elim φ ξ)

lemma sum_elim_eq_iff {α β γ : Type*} {a c : α → γ} {b d : β → γ} :
    Sum.elim a b = Sum.elim c d ↔ a = c ∧ b = d := by
  constructor
  · intro h
    constructor
    · funext x; exact congrFun h (Sum.inl x)
    · funext x; exact congrFun h (Sum.inr x)
  · rintro ⟨rfl, rfl⟩; rfl

lemma smul_sum_elim {α β γ : Type*} [SMul ℂ γ] (c : ℂ) (a : α → γ) (b : β → γ) :
    c • Sum.elim a b = Sum.elim (c • a) (c • b) := by
  funext x; cases x <;> rfl

/-- Row form of the linearized generalized eigenvalue problem. -/
lemma modeGEVP_iff [Fintype ν] [DecidableEq ν] (H V : Matrix ν ν ℂ) (E : ℝ)
    (lam : ℂ) (φ ξ : ν → ℂ) :
    modeGEVP H V E lam φ ξ ↔
      ((H - (E : ℂ) • 1) *ᵥ φ + Vᴴ *ᵥ ξ = lam⁻¹ • (-(V *ᵥ φ)) ∧
        φ = lam⁻¹ • ξ) := by
  unfold modeGEVP
  rw [fromBlocks_mulVec, fromBlocks_mulVec]
  simp only [Sum.elim_comp_inl, Sum.elim_comp_inr, one_mulVec, zero_mulVec,
    add_zero, zero_add, neg_mulVec]
  rw [smul_sum_elim, sum_elim_eq_iff]

/-- The pair (φ, λφ) solves the linearized problem iff (λ, φ) satisfies the
quadratic relation (λ ≠ 0). -/
lemma modeGEVP_pair_iff_quadRel [Fintype ν] [DecidableEq ν]
    (H V : Matrix ν ν ℂ) (E : ℝ) (lam : ℂ) (hlam : lam ≠ 0) (φ : ν → ℂ) :
    modeGEVP H V E lam φ (lam • φ) ↔ quadRel H V E lam φ := by
  rw [modeGEVP_iff]
  have hrow2 : φ = lam⁻¹ • lam • φ := by
    rw [smul_smul, inv_mul_cancel₀ hlam, one_smul]
  constructor
  · rintro ⟨h1, -⟩
    have h2 := congrArg (fun x => lam • x) h1
    simp only [smul_add, smul_smul, mul_inv_cancel₀ hlam, one_smul,
      mulVec_smul] at h2
    unfold quadRel
    have : V *ᵥ φ + (lam • ((H - (E : ℂ) • 1) *ᵥ φ) +
        (lam * lam) • (Vᴴ *ᵥ φ)) = 0 := by
      rw [h2]; abel
    rw [← this, sq]; abel
  · intro h
    refine ⟨?_, hrow2⟩
    unfold quadRel at h
    have h2 : lam • ((H - (E : ℂ) • 1) *ᵥ φ) + lam ^ 2 • (Vᴴ *ᵥ φ)
        = -(V *ᵥ φ) := by
      rw [eq_neg_iff_add_eq_zero]
      rw [← h]; abel
    have h3 := congrArg (fun x => lam⁻¹ • x) h2
    simp only [smul_add, smul_smul, inv_mul_cancel₀ hlam, one_smul, sq,
      ← mul_assoc, one_mul] at h3
    rw [mulVec_smul, ← h3]

/-- Modelled from the spec: the operation solve_modes (whose executable
implementation is not part of this repository; the notebook gives only its
defining equations) reformulates the quadratic eigenvalue problem as the
linearized generalized eigenvalue problem in (φ, ξ = λφ) and returns its
eigenpairs.  A returned mode is therefore a nonzero eigenpair of that
problem with λ ≠ 0. -/
def IsReturnedMode [Fintype ν] [DecidableEq ν] (H V : Matrix ν ν ℂ) (E : ℝ)
    (lam : ℂ) (φ : ν → ℂ) : Prop :=
  lam ≠ 0 ∧ φ ≠ 0 ∧ modeGEVP H V E lam φ (lam • φ)

/-- C1: every mode (λ, φ) returned by solve_modes satisfies the defining
quadratic relation V_l φ + λ (H_l − E) φ + λ² V_l† φ = 0. -/
theorem returnedMode_satisfies_quadRel [Fintype ν] [DecidableEq ν]
    (H V : Matrix ν ν ℂ) (E : ℝ) (lam : ℂ) (φ : ν → ℂ)
    (h : IsReturnedMode H V E lam φ) : quadRel H V E lam φ :=
  (modeGEVP_pair_iff_quadRel H V E lam h.1 φ).mp h.2.2

/-- Witness for C1: the concrete mode λ = i, φ = (1) of the lead
H_l = (0), V_l = (1) at E = 0 is a returned mode and satisfies the
quadratic relation. -/
theorem returnedMode_satisfies_quadRel_witness :
    IsReturnedMode (0 : Matrix (Fin 1) (Fin 1) ℂ) 1 0 Complex.I ![1] ∧
      quadRel (0 : Matrix (Fin 1) (Fin 1) ℂ) 1 0 Complex.I ![1] := by
  have hmode : IsReturnedMode (0 : Matrix (Fin 1) (Fin 1) ℂ) 1 0
      Complex.I ![1] := by
    refine ⟨Complex.I_ne_zero, ?_, ?_⟩
    · intro h
      have := congrFun h 0
      simp at this
    · rw [modeGEVP_iff]
      constructor
      · funext i
        fin_cases i
        simp [Matrix.mulVec, Matrix.dotProduct, Complex.inv_I]
      · funext i
        fin_cases i
        simp [Complex.inv_I]
  exact ⟨hmode,
    returnedMode_satisfies_quadRel (0 : Matrix (Fin 1) (Fin 1) ℂ) 1 0
      Complex.I ![1] hmode⟩

/-- C10: linearization equivalence.  For λ ≠ 0: the pair (φ, ξ = λφ)
satisfies the block generalized eigenvalue problem iff (λ, φ) satisfies
the quadratic relation, and every solution of the block problem has its
second component equal to λ times its first. -/
theorem linearization_equiv [Fintype ν] [DecidableEq ν]
    (H V : Matrix ν ν ℂ) (E : ℝ) (lam : ℂ) (hlam : lam ≠ 0) :
    (∀ φ : ν → ℂ, modeGEVP H V E lam φ (lam • φ) ↔ quadRel H V E lam φ) ∧
      (∀ φ ξ : ν → ℂ, modeGEVP H V E lam φ ξ → ξ = lam • φ) := by
  constructor
  · exact fun φ => modeGEVP_pair_iff_quadRel H V E lam hlam φ
  · intro φ ξ h
    rcases (modeGEVP_iff H V E lam φ ξ).mp h with ⟨-, h2⟩
    rw [h2, smul_smul, mul_inv_cancel₀ hlam, one_smul]

/-- Witness for C10: the linearization equivalence instantiated at the
1×1 lead H_l = (0), V_l = (1), E = 0, λ = i. -/
theorem linearization_equiv_witness :
    (Complex.I ≠ 0) ∧
      ((∀ φ : Fin 1 → ℂ,
          modeGEVP (0 : Matrix (Fin 1) (Fin 1) ℂ) 1 0 Complex.I φ
              (Complex.I • φ) ↔
            quadRel (0 : Matrix (Fin 1) (Fin 1) ℂ) 1 0 Complex.I φ) ∧
        (∀ φ ξ : Fin 1 → ℂ,
          modeGEVP (0 : Matrix (Fin 1) (Fin 1) ℂ) 1 0 Complex.I φ ξ →
            ξ = Complex.I • φ)) :=
  ⟨Complex.I_ne_zero,
    linearization_equiv (0 : Matrix (Fin 1) (Fin 1) ℂ) 1 0 Complex.I
      Complex.I_ne_zero⟩

/-- The mode velocity v = i φ† (λ V_l† − λ⁻¹ V_l) φ from the notebook. -/
noncomputable def velocity [Fintype ν] (V : Matrix ν ν ℂ) (lam : ℂ)
    (φ : ν → ℂ) : ℂ :=
  Complex.I * (star φ ⬝ᵥ ((lam • Vᴴ - lam⁻¹ • V) *ᵥ φ))

/-- Direction tag of a propagating mode. -/
inductive Direction : Type
  | incoming : Direction
  | outgoing : Direction
deriving DecidableEq

/-- Classification of a propagating mode by the sign of its velocity:
positive velocity is outgoing, negative is incoming. -/
noncomputable def directionOf (v : ℂ) : Direction :=
  if 0 < v.re then Direction.outgoing else Direction.incoming

/-- Modelled from the spec: the propagating set of solve_modes (whose
executable implementation is not part of this repository) consists of the
modes with |λ| = 1 whose velocity magnitude exceeds the numerical-zero
threshold; modes with velocity magnitude at most the threshold are
treated as evanescent. -/
def IsPropagatingMode [Fintype ν] (V : Matrix ν ν ℂ) (lam : ℂ)
    (φ : ν → ℂ) (tolv : ℝ) : Prop :=
  Complex.abs lam = 1 ∧ tolv < Complex.abs (velocity V lam φ)

lemma velocity_smul [Fintype ν] (V : Matrix ν ν ℂ) (lam : ℂ) (φ : ν → ℂ)
    (c : ℂ) : velocity V lam (c • φ) = (star c * c) * velocity V lam φ := by
  unfold velocity
  rw [star_smul, mulVec_smul, smul_dotProduct, dotProduct_smul]
  simp only [smul_eq_mul]
  ring

/-- The scattering matrix S is the submatrix of the extended scattering
matrix Q₊ with rows restricted to the propagating outgoing modes. -/
def sMatrix {κ κp ι : Type*} (Q : Matrix κ ι ℂ) (f : κp → κ) :
    Matrix κp ι ℂ :=
  Q.submatrix f id

/-- The stabilized scattering linear system of the notebook:
[(H_s − E), P_sᵀ B Ξ̄₊ ; B† P_s, −Φ̄₊] (Ψ_s; Q₊) = (−P_sᵀ B Ξ̄ₚ₋ ; Φ̄ₚ₋),
with one column per incoming propagating channel. -/
def stabScatteringSystem {σ ν ρ κ ι : Type*} [Fintype σ] [Fintype ν]
    [Fintype ρ] [Fintype κ] [DecidableEq σ]
    (Hs : Matrix σ σ ℂ) (E : ℝ) (P : Matrix ν σ ℂ) (B : Matrix ν ρ ℂ)
    (Ξp Φbp : Matrix ρ κ ℂ) (Ξm Φbm : Matrix ρ ι ℂ)
    (Ψ : Matrix σ ι ℂ) (Q : Matrix κ ι ℂ) : Prop :=
  (Hs - (E : ℂ) • 1) * Ψ + Pᵀ * B * Ξp * Q = -(Pᵀ * B * Ξm) ∧
    Bᴴ * P * Ψ - Φbp * Q = Φbm

/-- The unstabilized scattering linear system of the notebook, written
with V_l directly:
[(H_s − E), P_sᵀ V_l† Φ₊ Λ₊ ; V_l P_s, −V_l Φ₊] (Ψ_s; Q₊)
  = (−P_sᵀ V_l† Φ_{p−} Λ_{p−} ; V_l Φ_{p−}). -/
def unstabScatteringSystem {σ ν κ ι : Type*} [Fintype σ] [Fintype ν]
    [Fintype κ] [Fintype ι] [DecidableEq σ]
    (Hs : Matrix σ σ ℂ) (E : ℝ) (V : Matrix ν ν ℂ) (P : Matrix ν σ ℂ)
    (Φp : Matrix ν κ ℂ) (Λp : Matrix κ κ ℂ)
    (Φm : Matrix ν ι ℂ) (Λm : Matrix ι ι ℂ)
    (Ψ : Matrix σ ι ℂ) (Q : Matrix κ ι ℂ) : Prop :=
  (Hs - (E : ℂ) • 1) * Ψ + Pᵀ * Vᴴ * Φp * Λp * Q = -(Pᵀ * Vᴴ * Φm * Λm) ∧
    V * P * Ψ - V * Φp * Q = V * Φm

/-- C5: the velocity of a rescaled propagating mode.  Rescaling φ by
1/√|v| gives unit velocity magnitude, preserves the direction tag
determined by the sign of v, and a mode whose velocity magnitude is at
most the numerical-zero threshold is not in the propagating set. -/
theorem velocity_normalization [Fintype ν] (V : Matrix ν ν ℂ) (lam : ℂ)
    (φ : ν → ℂ) (hv : velocity V lam φ ≠ 0) :
    Complex.abs (velocity V lam
        ((((Real.sqrt (Complex.abs (velocity V lam φ)))⁻¹ : ℝ) : ℂ) • φ))
        = 1 ∧
      directionOf (velocity V lam
          ((((Real.sqrt (Complex.abs (velocity V lam φ)))⁻¹ : ℝ) : ℂ) • φ))
        = directionOf (velocity V lam φ) ∧
      ∀ tolv : ℝ, Complex.abs (velocity V lam φ) ≤ tolv →
        ¬IsPropagatingMode V lam φ tolv := by
  set v := velocity V lam φ with hvdef
  have habs : 0 < Complex.abs v := by
    simpa [Complex.abs.pos_iff] using hv
  have hsq : ((Real.sqrt (Complex.abs v))⁻¹ : ℝ)
      * ((Real.sqrt (Complex.abs v))⁻¹ : ℝ) = (Complex.abs v)⁻¹ := by
    rw [← Real.sqrt_inv]
    exact Real.mul_self_sqrt (le_of_lt (inv_pos.mpr habs))
  have hres : velocity V lam
      ((((Real.sqrt (Complex.abs v))⁻¹ : ℝ) : ℂ) • φ)
      = (((Complex.abs v)⁻¹ : ℝ) : ℂ) * v := by
    rw [velocity_smul, ← hvdef]
    rw [Complex.star_def, Complex.conj_ofReal, ← Complex.ofReal_mul, hsq]
  refine ⟨?_, ?_, ?_⟩
  · rw [hres, AbsoluteValue.map_mul, Complex.abs_ofReal,
      abs_of_pos (inv_pos.mpr habs)]
    field_simp
  · rw [hres]
    unfold directionOf
    have hre : ((((Complex.abs v)⁻¹ : ℝ) : ℂ) * v).re
        = ((Complex.abs v)⁻¹ : ℝ) * v.re := Complex.re_ofReal_mul _ _
    have hiff : (0 < ((((Complex.abs v)⁻¹ : ℝ) : ℂ) * v).re)
        ↔ (0 < v.re) := by
      rw [hre]
      constructor
      · intro h
        by_contra hneg
        push_neg at hneg
        nlinarith [inv_pos.mpr habs]
      · intro h
        exact mul_pos (inv_pos.mpr habs) h
    simp only [hiff]
  · intro tolv htol hprop
    exact absurd hprop.2 (not_lt.mpr htol)

/-- Witness for C5: the mode λ = i, φ = (1) of the 1×1 lead with
V_l = (1) has nonzero velocity, so the rescaling statement applies. -/
theorem velocity_normalization_witness :
    velocity (1 : Matrix (Fin 1) (Fin 1) ℂ) Complex.I ![1] ≠ 0 ∧
      (Complex.abs (velocity (1 : Matrix (Fin 1) (Fin 1) ℂ) Complex.I
          ((((Real.sqrt (Complex.abs (velocity (1 : Matrix (Fin 1) (Fin 1) ℂ)
            Complex.I ![1])))⁻¹ : ℝ) : ℂ) • ![1])) = 1 ∧
        directionOf (velocity (1 : Matrix (Fin 1) (Fin 1) ℂ) Complex.I
            ((((Real.sqrt (Complex.abs (velocity
              (1 : Matrix (Fin 1) (Fin 1) ℂ)
              Complex.I ![1])))⁻¹ : ℝ) : ℂ) • ![1]))
          = directionOf (velocity (1 : Matrix (Fin 1) (Fin 1) ℂ) Complex.I
              ![1]) ∧
        ∀ tolv : ℝ,
          Complex.abs (velocity (1 : Matrix (Fin 1) (Fin 1) ℂ) Complex.I
            ![1]) ≤ tolv →
          ¬IsPropagatingMode (1 : Matrix (Fin 1) (Fin 1) ℂ) Complex.I ![1]
            tolv) := by
  have hval : velocity (1 : Matrix (Fin 1) (Fin 1) ℂ) Complex.I ![1]
      = -2 := by
    unfold velocity
    simp [Matrix.mulVec, Matrix.dotProduct, Complex.inv_I]
    rw [mul_add, Complex.I_mul_I]
    ring
  have hv : velocity (1 : Matrix (Fin 1) (Fin 1) ℂ) Complex.I ![1] ≠ 0 := by
    rw [hval]; norm_num
  exact ⟨hv, velocity_normalization 1 Complex.I ![1] hv⟩

/-- C9: with zero inter-cell hopping every mode has zero velocity, the
propagating set is empty at any nonnegative threshold, and downstream the
empty-channel case is representable: the stabilized scattering system
with zero incoming channels is satisfied (not an error), and the
scattering matrix restricted to zero propagating channels is the empty
(0×0) matrix. -/
theorem zero_hopping_all_evanescent {σ ρ κ : Type*} [Fintype ν]
    [DecidableEq ν] [Fintype σ] [Fintype ρ] [Fintype κ] [DecidableEq σ] :
    (∀ (lam : ℂ) (φ : ν → ℂ), velocity (0 : Matrix ν ν ℂ) lam φ = 0) ∧
      (∀ (lam : ℂ) (φ : ν → ℂ) (tolv : ℝ), 0 ≤ tolv →
        ¬IsPropagatingMode (0 : Matrix ν ν ℂ) lam φ tolv) ∧
      (∀ (Hs : Matrix σ σ ℂ) (E : ℝ) (P : Matrix ν σ ℂ) (B : Matrix ν ρ ℂ)
        (Ξp Φbp : Matrix ρ κ ℂ) (Ξm Φbm : Matrix ρ (Fin 0) ℂ)
        (Ψ : Matrix σ (Fin 0) ℂ) (Q : Matrix κ (Fin 0) ℂ),
        stabScatteringSystem Hs E P B Ξp Φbp Ξm Φbm Ψ Q) ∧
      (∀ (Q : Matrix κ (Fin 0) ℂ) (f : Fin 0 → κ), sMatrix Q f = 0) := by
  have hvel : ∀ (lam : ℂ) (φ : ν → ℂ),
      velocity (0 : Matrix ν ν ℂ) lam φ = 0 := by
    intro lam φ
    unfold velocity
    simp
  refine ⟨hvel, ?_, ?_, ?_⟩
  · intro lam φ tolv htol hprop
    rcases hprop with ⟨-, hlt⟩
    rw [hvel] at hlt
    simp at hlt
    linarith
  · intro Hs E P B Ξp Φbp Ξm Φbm Ψ Q
    constructor <;> · ext i j; exact j.elim0
  · intro Q f
    ext i j
    exact j.elim0

/-- Witness for C9: the empty-channel conclusions instantiated at the 1×1
zero hopping matrix and concrete empty-column matrices. -/
theorem zero_hopping_all_evanescent_witness :
    velocity (0 : Matrix (Fin 1) (Fin 1) ℂ) Complex.I ![1] = 0 ∧
      ((0 : ℝ) ≤ 0 ∧
        ¬IsPropagatingMode (0 : Matrix (Fin 1) (Fin 1) ℂ) Complex.I ![1] 0) ∧
      stabScatteringSystem (0 : Matrix (Fin 1) (Fin 1) ℂ) 0
        (0 : Matrix (Fin 1) (Fin 1) ℂ) (0 : Matrix (Fin 1) (Fin 1) ℂ)
        (0 : Matrix (Fin 1) (Fin 1) ℂ) (0 : Matrix (Fin 1) (Fin 1) ℂ)
        (0 : Matrix (Fin 1) (Fin 0) ℂ) (0 : Matrix (Fin 1) (Fin 0) ℂ)
        (0 : Matrix (Fin 1) (Fin 0) ℂ) (0 : Matrix (Fin 1) (Fin 0) ℂ) ∧
      sMatrix (0 : Matrix (Fin 1) (Fin 0) ℂ) Fin.elim0 = 0 := by
  refine ⟨?_, ⟨le_refl 0, ?_⟩, ?_, ?_⟩
  · exact (zero_hopping_all_evanescent (ν := Fin 1) (σ := Fin 1)
      (ρ := Fin 1) (κ := Fin 1)).1 Complex.I ![1]
  · exact (zero_hopping_all_evanescent (ν := Fin 1) (σ := Fin 1)
      (ρ := Fin 1) (κ := Fin 1)).2.1 Complex.I ![1] 0 (le_refl 0)
  · exact (zero_hopping_all_evanescent (ν := Fin 1) (σ := Fin 1)
      (ρ := Fin 1) (κ := Fin 1)).2.2.1 0 0 0 0 0 0 0 0 0 0
  · exact (zero_hopping_all_evanescent (ν := Fin 1) (σ := Fin 1)
      (ρ := Fin 1) (κ := Fin 1)).2.2.2 0 Fin.elim0

/-- C2: the stabilized scattering system is obtained from the
unstabilized V_l-form system by substituting V_l = A B† (so that
Ξ̄ = A† Φ Λ and Φ̄ = B† Φ) and applying a left inverse of A to the second
block row; a pair (Ψ_s, Q₊) solves the stabilized system iff it solves
the original system. -/
theorem stab_system_equiv {σ ρ κ ι : Type*} [Fintype ν] [DecidableEq ν]
    [Fintype σ] [DecidableEq σ] [Fintype ρ] [DecidableEq ρ] [Fintype κ]
    [Fintype ι]
    (Hs : Matrix σ σ ℂ) (E : ℝ) (V : Matrix ν ν ℂ) (P : Matrix ν σ ℂ)
    (A B : Matrix ν ρ ℂ) (L : Matrix ρ ν ℂ)
    (Φp : Matrix ν κ ℂ) (Λp : Matrix κ κ ℂ)
    (Φm : Matrix ν ι ℂ) (Λm : Matrix ι ι ℂ)
    (Ξp Φbp : Matrix ρ κ ℂ) (Ξm Φbm : Matrix ρ ι ℂ)
    (Ψ : Matrix σ ι ℂ) (Q : Matrix κ ι ℂ)
    (hV : V = A * Bᴴ) (hL : L * A = 1)
    (hΞp : Ξp = Aᴴ * Φp * Λp) (hΦbp : Φbp = Bᴴ * Φp)
    (hΞm : Ξm = Aᴴ * Φm * Λm) (hΦbm : Φbm = Bᴴ * Φm) :
    stabScatteringSystem Hs E P B Ξp Φbp Ξm Φbm Ψ Q ↔
      unstabScatteringSystem Hs E V P Φp Λp Φm Λm Ψ Q := by
  subst hV hΞp hΦbp hΞm hΦbm
  unfold stabScatteringSystem unstabScatteringSystem
  have hrow1 : Pᵀ * B * (Aᴴ * Φp * Λp) * Q = Pᵀ * (A * Bᴴ)ᴴ * Φp * Λp * Q := by
    rw [conjTranspose_mul, conjTranspose_conjTranspose]
    simp only [Matrix.mul_assoc]
  have hrow1m : Pᵀ * B * (Aᴴ * Φm * Λm) = Pᵀ * (A * Bᴴ)ᴴ * Φm * Λm := by
    rw [conjTranspose_mul, conjTranspose_conjTranspose]
    simp only [Matrix.mul_assoc]
  rw [hrow1, hrow1m]
  constructor
  · rintro ⟨h1, h2⟩
    refine ⟨h1, ?_⟩
    have h3 := congrArg (fun X => A * X) h2
    simp only [Matrix.mul_sub] at h3
    simp only [Matrix.mul_assoc] at h3 ⊢
    exact h3
  · rintro ⟨h1, h2⟩
    refine ⟨h1, ?_⟩
    have h3 := congrArg (fun X => L * X) h2
    simp only [Matrix.mul_sub] at h3
    simp only [← Matrix.mul_assoc] at h3
    rw [hL] at h3
    simp only [Matrix.one_mul] at h3
    simp only [Matrix.mul_assoc] at h3 ⊢
    exact h3

/-- Witness for C2: the equivalence instantiated at a concrete 1×1
system with V_l = A = B = L = 1. -/
theorem stab_system_equiv_witness :
    ((1 : Matrix (Fin 1) (Fin 1) ℂ) = 1 * (1 : Matrix (Fin 1) (Fin 1) ℂ)ᴴ) ∧
      ((1 : Matrix (Fin 1) (Fin 1) ℂ) * 1 = 1) ∧
      (stabScatteringSystem (0 : Matrix (Fin 1) (Fin 1) ℂ) 0
          (1 : Matrix (Fin 1) (Fin 1) ℂ) (1 : Matrix (Fin 1) (Fin 1) ℂ)
          ((1 : Matrix (Fin 1) (Fin 1) ℂ)ᴴ * 1 * 1)
          ((1 : Matrix (Fin 1) (Fin 1) ℂ)ᴴ * 1)
          ((1 : Matrix (Fin 1) (Fin 1) ℂ)ᴴ * 1 * 1)
          ((1 : Matrix (Fin 1) (Fin 1) ℂ)ᴴ * 1)
          (0 : Matrix (Fin 1) (Fin 1) ℂ) (0 : Matrix (Fin 1) (Fin 1) ℂ) ↔
        unstabScatteringSystem (0 : Matrix (Fin 1) (Fin 1) ℂ) 0
          (1 : Matrix (Fin 1) (Fin 1) ℂ) (1 : Matrix (Fin 1) (Fin 1) ℂ)
          (1 : Matrix (Fin 1) (Fin 1) ℂ) (1 : Matrix (Fin 1) (Fin 1) ℂ)
          (1 : Matrix (Fin 1) (Fin 1) ℂ) (1 : Matrix (Fin 1) (Fin 1) ℂ)
          (0 : Matrix (Fin 1) (Fin 1) ℂ) (0 : Matrix (Fin 1) (Fin 1) ℂ)) := by
  refine ⟨by simp, by simp, ?_⟩
  exact stab_system_equiv (0 : Matrix (Fin 1) (Fin 1) ℂ) 0
    (1 : Matrix (Fin 1) (Fin 1) ℂ) (1 : Matrix (Fin 1) (Fin 1) ℂ)
    (1 : Matrix (Fin 1) (Fin 1) ℂ) (1 : Matrix (Fin 1) (Fin 1) ℂ)
    (1 : Matrix (Fin 1) (Fin 1) ℂ) (1 : Matrix (Fin 1) (Fin 1) ℂ)
    (1 : Matrix (Fin 1) (Fin 1) ℂ) (1 : Matrix (Fin 1) (Fin 1) ℂ)
    (1 : Matrix (Fin 1) (Fin 1) ℂ)
    ((1 : Matrix (Fin 1) (Fin 1) ℂ)ᴴ * 1 * 1)
    ((1 : Matrix (Fin 1) (Fin 1) ℂ)ᴴ * 1)
    ((1 : Matrix (Fin 1) (Fin 1) ℂ)ᴴ * 1 * 1)
    ((1 : Matrix (Fin 1) (Fin 1) ℂ)ᴴ * 1)
    (0 : Matrix (Fin 1) (Fin 1) ℂ) (0 : Matrix (Fin 1) (Fin 1) ℂ)
    (by simp) (by simp) rfl rfl rfl rfl

/-- The stabilized non-singular-path block matrix of the notebook,
[−A⁻¹ (H_l − E) (B†)⁻¹, −A⁻¹ B ; A† (B†)⁻¹, 0], with the inverses A⁻¹
and (B†)⁻¹ passed explicitly as Ai and Bi. -/
noncomputable def stabNonsingBlock [Fintype ν] [DecidableEq ν]
    (H : Matrix ν ν ℂ) (E : ℝ)
    (A B Ai Bi : Matrix ν ν ℂ) : Matrix (ν ⊕ ν) (ν ⊕ ν) ℂ :=
  fromBlocks (-(Ai * (H - (E : ℂ) • 1) * Bi)) (-(Ai * B)) (Aᴴ * Bi) 0

/-- Modelled from the spec: solve_modes returns one mode per eigenvalue
(with algebraic multiplicity) of the 2n-dimensional linearized problem;
on the non-singular path that problem is the stabilized block matrix,
so the returned modes are its characteristic roots. -/
noncomputable def allModeEigenvalues [Fintype ν] [DecidableEq ν]
    (H : Matrix ν ν ℂ) (E : ℝ) (A B Ai Bi : Matrix ν ν ℂ) : Multiset ℂ :=
  (stabNonsingBlock H E A B Ai Bi).charpoly.roots

/-- C6: the total number of modes returned (propagating plus evanescent,
both directions, counted with multiplicity) equals 2 × dof(H_l). -/
theorem mode_count_eq_two_mul_dof [Fintype ν] [DecidableEq ν]
    (H : Matrix ν ν ℂ) (E : ℝ) (A B Ai Bi : Matrix ν ν ℂ) :
    Multiset.card (allModeEigenvalues H E A B Ai Bi)
      = 2 * Fintype.card ν := by
  unfold allModeEigenvalues
  have hsplit : Polynomial.Splits (RingHom.id ℂ)
      (stabNonsingBlock H E A B Ai Bi).charpoly :=
    IsAlgClosed.splits_codomain _
  rw [Polynomial.splits_iff_card_roots.mp hsplit,
    Matrix.charpoly_natDegree_eq_dim, Fintype.card_sum]
  ring

/-- Scaling the wavefunction of a mode by a nonzero scalar does not
affect the quadratic relation. -/
lemma quadRel_smul_iff [Fintype ν] [DecidableEq ν] (H V : Matrix ν ν ℂ)
    (E : ℝ) (lam : ℂ) (a : ℂ) (ha : a ≠ 0) (φ : ν → ℂ) :
    quadRel H V E lam (a • φ) ↔ quadRel H V E lam φ := by
  unfold quadRel
  rw [mulVec_smul, mulVec_smul, mulVec_smul, smul_comm lam a, smul_comm
    (lam ^ 2) a, ← smul_add, ← smul_add, smul_eq_zero]
  simp [ha]

lemma mulVec_leftInv_cancel [Fintype ν] [DecidableEq ν]
    {V Vi : Matrix ν ν ℂ} (h : V * Vi = 1) (z : ν → ℂ) :
    V *ᵥ (Vi *ᵥ z) = z := by
  rw [mulVec_mulVec, h, one_mulVec]

/-- C3: on the non-singular path, with A = V_l/√‖V_l‖ and B = √‖V_l‖
(the scalar c stands for √‖V_l‖ > 0), a vector (φ̄, ξ̄) = (B†φ, A†(λφ))
satisfies the stabilized standard eigenproblem with eigenvalue λ⁻¹ iff
(λ, φ) with φ = (B†)⁻¹ φ̄ satisfies the quadratic mode relation, and the
second component is then determined as ξ̄ = λ A† φ. -/
theorem nonsingular_path_equiv [Fintype ν] [DecidableEq ν]
    (H V Vi : Matrix ν ν ℂ) (E : ℝ) (c : ℝ) (lam : ℂ)
    (hc : 0 < c) (hV1 : V * Vi = 1) (hV2 : Vi * V = 1) (hlam : lam ≠ 0)
    (x y : ν → ℂ) :
    (stabNonsingBlock H E (((c : ℂ))⁻¹ • V) ((c : ℂ) • 1)
        ((c : ℂ) • Vi) (((c : ℂ))⁻¹ • 1) *ᵥ Sum.elim x y
      = lam⁻¹ • Sum.elim x y) ↔
      (quadRel H V E lam (((c : ℂ))⁻¹ • x) ∧
        y = lam • (((c : ℂ))⁻¹ • (Vᴴ *ᵥ (((c : ℂ))⁻¹ • x)))) := by
  have hcC : (c : ℂ) ≠ 0 := by
    simpa using ne_of_gt hc
  have hcCi : ((c : ℂ))⁻¹ ≠ 0 := inv_ne_zero hcC
  -- simplify the four blocks
  have hTL : ((c : ℂ) • Vi) * (H - (E : ℂ) • 1) * (((c : ℂ))⁻¹ • 1)
      = Vi * (H - (E : ℂ) • 1) := by
    rw [Matrix.smul_mul, Matrix.smul_mul, Matrix.mul_smul, Matrix.mul_one,
      smul_smul, mul_inv_cancel₀ hcC, one_smul]
  have hTR : ((c : ℂ) • Vi) * ((c : ℂ) • (1 : Matrix ν ν ℂ))
      = ((c : ℂ) * (c : ℂ)) • Vi := by
    rw [Matrix.smul_mul, Matrix.mul_smul, Matrix.mul_one, smul_smul]
  have hBL : ((((c : ℂ))⁻¹ • V)ᴴ) * (((c : ℂ))⁻¹ • (1 : Matrix ν ν ℂ))
      = (((c : ℂ))⁻¹ * ((c : ℂ))⁻¹) • Vᴴ := by
    rw [conjTranspose_smul, star_inv₀, Complex.star_def,
      Complex.conj_ofReal, Matrix.smul_mul, Matrix.mul_smul,
      Matrix.mul_one, smul_smul, mul_comm]
  unfold stabNonsingBlock
  rw [hTL, hTR, hBL, fromBlocks_mulVec, smul_sum_elim, sum_elim_eq_iff]
  simp only [Sum.elim_comp_inl, Sum.elim_comp_inr, zero_mulVec, add_zero,
    neg_mulVec, smul_mulVec_assoc]
  -- now the rows are explicit
  have hyform : lam • (((c : ℂ))⁻¹ • (Vᴴ *ᵥ (((c : ℂ))⁻¹ • x)))
      = (lam * ((c : ℂ)⁻¹ * (c : ℂ)⁻¹)) • (Vᴴ *ᵥ x) := by
    rw [mulVec_smul, smul_smul, smul_smul, mul_assoc]
  have hyiff : (((c : ℂ))⁻¹ * ((c : ℂ))⁻¹) • (Vᴴ *ᵥ x) = lam⁻¹ • y ↔
      y = lam • (((c : ℂ))⁻¹ • (Vᴴ *ᵥ (((c : ℂ))⁻¹ • x))) := by
    rw [hyform]
    constructor
    · intro h
      have h2 := congrArg (fun z => lam • z) h
      simp only [smul_smul, mul_inv_cancel₀ hlam, one_smul] at h2
      exact h2.symm
    · intro h
      rw [h, smul_smul, ← mul_assoc, inv_mul_cancel₀ hlam, one_mul]
  have hquadiff : quadRel H V E lam (((c : ℂ))⁻¹ • x) ↔
      quadRel H V E lam x := quadRel_smul_iff H V E lam _ hcCi x
  constructor
  · rintro ⟨h1, h2⟩
    have hy := hyiff.mp h2
    refine ⟨hquadiff.mpr ?_, hy⟩
    -- substitute y into the first row
    rw [hy] at h1
    have hsc : ((c : ℂ) * (c : ℂ)) •
        (Vi *ᵥ (lam • (((c : ℂ))⁻¹ • (Vᴴ *ᵥ (((c : ℂ))⁻¹ • x)))))
        = lam • (Vi *ᵥ (Vᴴ *ᵥ x)) := by
      simp only [mulVec_smul, smul_smul]
      congr 1
      field_simp
    rw [hsc] at h1
    -- h1 : -((Vi * (H - E•1)) *ᵥ x) + -(lam • Vi *ᵥ Vᴴ *ᵥ x) = lam⁻¹ • x
    have h3 := congrArg (fun z => lam • (V *ᵥ z)) h1
    simp only [mulVec_add, mulVec_neg, mulVec_smul, smul_add, smul_neg,
      smul_smul, mul_inv_cancel₀ hlam, one_smul, mulVec_mulVec,
      ← Matrix.mul_assoc, hV1, Matrix.one_mul] at h3
    unfold quadRel
    rw [← h3, sq]
    abel
  · rintro ⟨hq, hy⟩
    refine ⟨?_, hyiff.mpr hy⟩
    have hqx := hquadiff.mp hq
    unfold quadRel at hqx
    have hVx : V *ᵥ x = -(lam • ((H - (E : ℂ) • 1) *ᵥ x))
        - lam ^ 2 • (Vᴴ *ᵥ x) := by
      have hqx2 := hqx
      rw [add_assoc] at hqx2
      have h6 := eq_neg_of_add_eq_zero_left hqx2
      rw [h6, neg_add]
      abel
    rw [hy]
    have hsc : ((c : ℂ) * (c : ℂ)) •
        (Vi *ᵥ (lam • (((c : ℂ))⁻¹ • (Vᴴ *ᵥ (((c : ℂ))⁻¹ • x)))))
        = lam • (Vi *ᵥ (Vᴴ *ᵥ x)) := by
      simp only [mulVec_smul, smul_smul]
      congr 1
      field_simp
    rw [hsc]
    have h5 := congrArg (fun z => lam⁻¹ • (Vi *ᵥ z)) hVx
    simp only [mulVec_sub, mulVec_neg, mulVec_smul, smul_sub, smul_neg,
      smul_smul, inv_mul_cancel₀ hlam, one_smul, mulVec_mulVec,
      ← Matrix.mul_assoc, hV2, Matrix.one_mul, one_mulVec, sq] at h5
    have hscal : lam⁻¹ * (lam * lam) = lam := by
      field_simp
    rw [mulVec_mulVec, h5, hscal]
    abel

/-- Witness for C3: the equivalence instantiated at the 1×1 lead with
H_l = (0), V_l = (1), E = 0, c = 1, λ = 1. -/
theorem nonsingular_path_equiv_witness :
    ((0 : ℝ) < 1 ∧ (1 : Matrix (Fin 1) (Fin 1) ℂ) * 1 = 1 ∧
        (1 : Matrix (Fin 1) (Fin 1) ℂ) * 1 = 1 ∧ (1 : ℂ) ≠ 0) ∧
      ((stabNonsingBlock (0 : Matrix (Fin 1) (Fin 1) ℂ) 0
          ((((1 : ℝ) : ℂ))⁻¹ • 1) (((1 : ℝ) : ℂ) • 1)
          (((1 : ℝ) : ℂ) • 1) ((((1 : ℝ) : ℂ))⁻¹ • 1)
            *ᵥ Sum.elim ![1] ![1]
        = (1 : ℂ)⁻¹ • Sum.elim ![1] ![1]) ↔
        (quadRel (0 : Matrix (Fin 1) (Fin 1) ℂ) 1 0 1
            ((((1 : ℝ) : ℂ))⁻¹ • ![1]) ∧
          ![1] = (1 : ℂ) • ((((1 : ℝ) : ℂ))⁻¹ •
            ((1 : Matrix (Fin 1) (Fin 1) ℂ)ᴴ *ᵥ
              ((((1 : ℝ) : ℂ))⁻¹ • ![1]))))) :=
  ⟨⟨one_pos, by simp, by simp, one_ne_zero⟩,
    nonsingular_path_equiv (0 : Matrix (Fin 1) (Fin 1) ℂ) 1 1 0 1 1
      one_pos (by simp) (by simp) one_ne_zero ![1] ![1]⟩

/-- The single-band 1-D chain test lead: unit-cell Hamiltonian
H_l = (2t). -/
def chainH (t : ℝ) : Matrix (Fin 1) (Fin 1) ℂ :=
  Matrix.of ![![((2 * t : ℝ) : ℂ)]]

/-- The single-band 1-D chain test lead: inter-cell hopping V_l = (t). -/
def chainV (t : ℝ) : Matrix (Fin 1) (Fin 1) ℂ :=
  Matrix.of ![![((t : ℝ) : ℂ)]]

/-- Scalar form of the quadratic relation on the 1-D chain. -/
lemma chain_quadRel_iff (t E : ℝ) (lam : ℂ) :
    quadRel (chainH t) (chainV t) E lam ![1] ↔
      (t : ℂ) + lam * (2 * (t : ℂ) - (E : ℂ)) + lam ^ 2 * (t : ℂ) = 0 := by
  unfold quadRel chainH chainV
  rw [funext_iff, Fin.forall_fin_one]
  simp [Matrix.mulVec, Matrix.dotProduct, Complex.conj_ofReal]

/-- Counterexample to C8 as stated: at t = 1 the energy E = 4/5 equals
2t − 2t cos θ for θ = arccos(3/5), and e^{iθ} = 3/5 + (4/5)i has
modulus 1, yet e^{iθ} does not satisfy the quadratic relation of the
chain at E, so it is not a mode eigenvalue; the dispersion consistent
with the quadratic relation is E = 2t + 2t cos θ. -/
theorem chain_dispersion_counterexample :
    ((4 : ℝ) / 5 = 2 * 1 - 2 * 1 * (3 / 5)) ∧
      Complex.abs (((3 / 5 : ℝ) : ℂ) + ((4 / 5 : ℝ) : ℂ) * Complex.I) = 1 ∧
      Complex.exp (((Real.arccos (3 / 5) : ℝ) : ℂ) * Complex.I)
        = ((3 / 5 : ℝ) : ℂ) + ((4 / 5 : ℝ) : ℂ) * Complex.I ∧
      ¬quadRel (chainH 1) (chainV 1) (4 / 5)
          (((3 / 5 : ℝ) : ℂ) + ((4 / 5 : ℝ) : ℂ) * Complex.I) ![1] := by
  refine ⟨by norm_num, ?_, ?_, ?_⟩
  · rw [Complex.abs_apply, Complex.normSq_apply]
    simp only [Complex.add_re, Complex.add_im, Complex.mul_re,
      Complex.mul_im, Complex.I_re, Complex.I_im, Complex.ofReal_re,
      Complex.ofReal_im]
    norm_num
  · rw [Complex.exp_mul_I, ← Complex.ofReal_cos, ← Complex.ofReal_sin,
      Real.cos_arccos (by norm_num) (by norm_num), Real.sin_arccos,
      show (1 - (3 / 5 : ℝ) ^ 2) = (4 / 5 : ℝ) ^ 2 by norm_num,
      Real.sqrt_sq (by norm_num : (0 : ℝ) ≤ 4 / 5)]
  · rw [chain_quadRel_iff]
    intro h
    rw [Complex.ext_iff] at h
    rcases h with ⟨hre, -⟩
    simp only [Complex.add_re, Complex.mul_re, Complex.mul_im,
      Complex.add_im, Complex.I_re, Complex.I_im, Complex.ofReal_re,
      Complex.ofReal_im, Complex.sub_re, Complex.sub_im, Complex.zero_re,
      sq, Complex.re_ofNat, Complex.im_ofNat, Complex.one_re, Complex.one_im] at hre
    norm_num at hre

/-- C8 (amended): on the single-band 1-D chain with H_l = (2t),
V_l = (t) and 0 < E < 4t, setting θ = arccos((E − 2t)/(2t)) one has the
dispersion E = 2t + 2t cos θ (not 2t − 2t cos θ); the quadratic relation
holds exactly for the two eigenvalues λ = e^{±iθ}, both of modulus one;
their velocities are ∓2t sin θ (one incoming, one outgoing) of magnitude
2t sin θ > 0; and the two eigenvalues are distinct. -/
theorem chain_modes_amended (t E : ℝ) (hE0 : 0 < E) (hE4 : E < 4 * t) :
    E = 2 * t + 2 * t * Real.cos (Real.arccos ((E - 2 * t) / (2 * t))) ∧
      (∀ lam : ℂ, quadRel (chainH t) (chainV t) E lam ![1] ↔
        (lam = Complex.exp
            (((Real.arccos ((E - 2 * t) / (2 * t)) : ℝ) : ℂ) * Complex.I) ∨
          lam = Complex.exp
            (-(((Real.arccos ((E - 2 * t) / (2 * t)) : ℝ) : ℂ) *
              Complex.I)))) ∧
      Complex.abs (Complex.exp
        (((Real.arccos ((E - 2 * t) / (2 * t)) : ℝ) : ℂ) * Complex.I))
          = 1 ∧
      Complex.abs (Complex.exp
        (-(((Real.arccos ((E - 2 * t) / (2 * t)) : ℝ) : ℂ) * Complex.I)))
          = 1 ∧
      velocity (chainV t) (Complex.exp
          (((Real.arccos ((E - 2 * t) / (2 * t)) : ℝ) : ℂ) * Complex.I))
          ![1]
        = ((-(2 * t * Real.sin (Real.arccos ((E - 2 * t) / (2 * t)))) :
            ℝ) : ℂ) ∧
      velocity (chainV t) (Complex.exp
          (-(((Real.arccos ((E - 2 * t) / (2 * t)) : ℝ) : ℂ) *
            Complex.I))) ![1]
        = ((2 * t * Real.sin (Real.arccos ((E - 2 * t) / (2 * t))) :
            ℝ) : ℂ) ∧
      0 < 2 * t * Real.sin (Real.arccos ((E - 2 * t) / (2 * t))) ∧
      Complex.exp
          (((Real.arccos ((E - 2 * t) / (2 * t)) : ℝ) : ℂ) * Complex.I)
        ≠ Complex.exp
          (-(((Real.arccos ((E - 2 * t) / (2 * t)) : ℝ) : ℂ) *
            Complex.I)) := by
  have ht : 0 < t := by linarith
  have h2t : (0 : ℝ) < 2 * t := by linarith
  set x : ℝ := (E - 2 * t) / (2 * t) with hxdef
  set θ : ℝ := Real.arccos x with hθdef
  have hx1 : -1 < x := by
    rw [hxdef, lt_div_iff h2t]
    linarith
  have hx2 : x < 1 := by
    rw [hxdef, div_lt_one h2t]
    linarith
  have hcos : Real.cos θ = x := Real.cos_arccos (le_of_lt hx1) (le_of_lt hx2)
  have hmul : 2 * t * x = E - 2 * t := by
    rw [hxdef]
    field_simp
  have hE' : E = 2 * t + 2 * t * Real.cos θ := by
    rw [hcos]
    linarith
  have hsin : Real.sin θ = Real.sqrt (1 - x ^ 2) := Real.sin_arccos x
  have hsinpos : 0 < Real.sin θ := by
    rw [hsin]
    apply Real.sqrt_pos.mpr
    nlinarith
  set a : ℂ := Complex.exp ((θ : ℂ) * Complex.I) with hadef
  set b : ℂ := Complex.exp (-((θ : ℂ) * Complex.I)) with hbdef
  have ha : a = Complex.cos (θ : ℂ) + Complex.sin (θ : ℂ) * Complex.I :=
    Complex.exp_mul_I _
  have hb : b = Complex.cos (θ : ℂ) - Complex.sin (θ : ℂ) * Complex.I := by
    rw [hbdef, ← neg_mul, ← Complex.ofReal_neg, Complex.exp_mul_I,
      Complex.ofReal_neg, Complex.cos_neg, Complex.sin_neg]
    ring
  have hab : a * b = 1 := by
    rw [hadef, hbdef, ← Complex.exp_add]
    simp
  have hsum : a + b = 2 * Complex.cos (θ : ℂ) := by
    rw [ha, hb]; ring
  have hEC : (E : ℂ) = 2 * (t : ℂ) + 2 * (t : ℂ) * Complex.cos (θ : ℂ) := by
    have h0 := congrArg (fun r : ℝ => (r : ℂ)) hE'
    push_cast at h0
    exact h0
  have htC : (t : ℂ) ≠ 0 := Complex.ofReal_ne_zero.mpr (ne_of_gt ht)
  have hfact : ∀ lam : ℂ,
      (t : ℂ) + lam * (2 * (t : ℂ) - (E : ℂ)) + lam ^ 2 * (t : ℂ)
        = (t : ℂ) * (lam - a) * (lam - b) := by
    intro lam
    linear_combination ((t : ℂ) * lam) * hsum - (t : ℂ) * hab - lam * hEC
  have haR : a = ((Real.cos θ : ℝ) : ℂ) + ((Real.sin θ : ℝ) : ℂ) * Complex.I := by
    rw [ha, ← Complex.ofReal_cos, ← Complex.ofReal_sin]
  have hbR : b = ((Real.cos θ : ℝ) : ℂ) - ((Real.sin θ : ℝ) : ℂ) * Complex.I := by
    rw [hb, ← Complex.ofReal_cos, ← Complex.ofReal_sin]
  have hsinC : Complex.sin ((θ : ℝ) : ℂ) = ((Real.sin θ : ℝ) : ℂ) :=
    (Complex.ofReal_sin θ).symm
  have hainv : a⁻¹ = b := by
    rw [hadef, hbdef, ← Complex.exp_neg]
  have hbinv : b⁻¹ = a := by
    rw [hadef, hbdef, ← Complex.exp_neg, neg_neg]
  refine ⟨hE', ?_, ?_, ?_, ?_, ?_, ?_, ?_⟩
  · intro lam
    rw [chain_quadRel_iff, hfact lam, mul_eq_zero, mul_eq_zero,
      sub_eq_zero, sub_eq_zero]
    simp [htC]
  · exact Complex.abs_exp_ofReal_mul_I θ
  · rw [hbdef, ← neg_mul, ← Complex.ofReal_neg]
    exact Complex.abs_exp_ofReal_mul_I (-θ)
  · unfold velocity chainV
    simp only [Matrix.conjTranspose_apply, Matrix.mulVec,
      Matrix.dotProduct, Fin.sum_univ_one]
    simp [Complex.conj_ofReal, hainv]
    rw [haR, hbR]
    push_cast
    linear_combination (2 * (t : ℂ) * ((Real.sin θ : ℝ) : ℂ)) *
      Complex.I_sq + (2 * (t : ℂ) * (Complex.I ^ 2 + 1)) * hsinC
  · unfold velocity chainV
    simp only [Matrix.conjTranspose_apply, Matrix.mulVec,
      Matrix.dotProduct, Fin.sum_univ_one]
    simp [Complex.conj_ofReal, hbinv]
    rw [haR, hbR]
    push_cast
    linear_combination (-(2 * (t : ℂ) * ((Real.sin θ : ℝ) : ℂ))) *
      Complex.I_sq + (-(2 * (t : ℂ) * (Complex.I ^ 2 + 1))) * hsinC
  · exact mul_pos h2t hsinpos
  · intro h
    have hd : a - b = 2 * Complex.sin (θ : ℂ) * Complex.I := by
      rw [ha, hb]; ring
    rw [h, sub_self] at hd
    have h0 : Complex.sin (θ : ℂ) = 0 := by
      have h1 := hd.symm
      simpa [Complex.I_ne_zero] using h1
    rw [← Complex.ofReal_sin] at h0
    have h2 : Real.sin θ = 0 := by exact_mod_cast h0
    linarith

/-- Witness for C8 (amended): the chain statement instantiated at t = 1,
E = 2 (band center). -/
theorem chain_modes_amended_witness :
    ((0 : ℝ) < 2 ∧ (2 : ℝ) < 4 * 1) ∧
      ((2 : ℝ) = 2 * 1 +
          2 * 1 * Real.cos (Real.arccos ((2 - 2 * 1) / (2 * 1))) ∧
        (∀ lam : ℂ, quadRel (chainH 1) (chainV 1) 2 lam ![1] ↔
          (lam = Complex.exp
              (((Real.arccos ((2 - 2 * 1) / (2 * 1)) : ℝ) : ℂ) *
                Complex.I) ∨
            lam = Complex.exp
              (-(((Real.arccos ((2 - 2 * 1) / (2 * 1)) : ℝ) : ℂ) *
                Complex.I)))) ∧
        Complex.abs (Complex.exp
          (((Real.arccos ((2 - 2 * 1) / (2 * 1)) : ℝ) : ℂ) * Complex.I))
            = 1 ∧
        Complex.abs (Complex.exp
          (-(((Real.arccos ((2 - 2 * 1) / (2 * 1)) : ℝ) : ℂ) *
            Complex.I))) = 1 ∧
        velocity (chainV 1) (Complex.exp
            (((Real.arccos ((2 - 2 * 1) / (2 * 1)) : ℝ) : ℂ) *
              Complex.I)) ![1]
          = ((-(2 * 1 * Real.sin (Real.arccos ((2 - 2 * 1) / (2 * 1)))) :
              ℝ) : ℂ) ∧
        velocity (chainV 1) (Complex.exp
            (-(((Real.arccos ((2 - 2 * 1) / (2 * 1)) : ℝ) : ℂ) *
              Complex.I))) ![1]
          = ((2 * 1 * Real.sin (Real.arccos ((2 - 2 * 1) / (2 * 1))) :
              ℝ) : ℂ) ∧
        0 < 2 * 1 * Real.sin (Real.arccos ((2 - 2 * 1) / (2 * 1))) ∧
        Complex.exp
            (((Real.arccos ((2 - 2 * 1) / (2 * 1)) : ℝ) : ℂ) * Complex.I)
          ≠ Complex.exp
            (-(((Real.arccos ((2 - 2 * 1) / (2 * 1)) : ℝ) : ℂ) *
              Complex.I))) :=
  ⟨⟨by norm_num, by norm_num⟩,
    chain_modes_amended 1 2 (by norm_num) (by norm_num)⟩

/-- The shifted, invertible operator H̄_l = H_l − E + iAA† + iBB† of the
singular path. -/
noncomputable def shiftedH [Fintype ν] [DecidableEq ν] [Fintype ρ]
    (H : Matrix ν ν ℂ) (E : ℝ) (A B : Matrix ν ρ ℂ) : Matrix ν ν ℂ :=
  H - (E : ℂ) • 1 + Complex.I • (A * Aᴴ) + Complex.I • (B * Bᴴ)

/-- Left-hand block matrix of the singular-path problem,
[−iA† H̄⁻¹ B, A† H̄⁻¹ B ; 1 − iB† H̄⁻¹ B, B† H̄⁻¹ B], with G standing for
H̄⁻¹. -/
noncomputable def singLHS [Fintype ν] [Fintype ρ] [DecidableEq ρ]
    (A B : Matrix ν ρ ℂ) (G : Matrix ν ν ℂ) : Matrix (ρ ⊕ ρ) (ρ ⊕ ρ) ℂ :=
  fromBlocks (-(Complex.I • (Aᴴ * G * B))) (Aᴴ * G * B)
    (1 - Complex.I • (Bᴴ * G * B)) (Bᴴ * G * B)

/-- Right-hand block matrix of the singular-path problem,
[−A† H̄⁻¹ A, iA† H̄⁻¹ A − 1 ; −B† H̄⁻¹ A, iB† H̄⁻¹ A]. -/
noncomputable def singRHS [Fintype ν] [Fintype ρ] [DecidableEq ρ]
    (A B : Matrix ν ρ ℂ) (G : Matrix ν ν ℂ) : Matrix (ρ ⊕ ρ) (ρ ⊕ ρ) ℂ :=
  fromBlocks (-(Aᴴ * G * A)) (Complex.I • (Aᴴ * G * A) - 1)
    (-(Bᴴ * G * A)) (Complex.I • (Bᴴ * G * A))

/-- The wavefunction recovered from a stabilized singular-path vector
(φ̄, ξ̄) = (x, y): φ = H̄⁻¹ (−B ξ̄ − λ⁻¹ A φ̄ + iλ⁻¹ A ξ̄ + iB φ̄). -/
noncomputable def singularPhi [Fintype ν] [Fintype ρ]
    (A B : Matrix ν ρ ℂ) (G : Matrix ν ν ℂ) (lam : ℂ) (x y : ρ → ℂ) :
    ν → ℂ :=
  G *ᵥ (Complex.I • (B *ᵥ x) - B *ᵥ y - lam⁻¹ • (A *ᵥ x)
    + (Complex.I * lam⁻¹) • (A *ᵥ y))

/-- Reduction of a generalized eigenproblem to a standard one when the
right-hand matrix is invertible. -/
lemma gevp_reduce_iff {κ : Type*} [Fintype κ] [DecidableEq κ]
    (L R Ri : Matrix κ κ ℂ) (h1 : Ri * R = 1) (h2 : R * Ri = 1)
    (μ : ℂ) (z : κ → ℂ) :
    L *ᵥ z = μ • (R *ᵥ z) ↔ (Ri * L) *ᵥ z = μ • z := by
  constructor
  · intro h
    rw [← mulVec_mulVec, h, mulVec_smul, mulVec_mulVec, h1, one_mulVec]
  · intro h
    have h3 : R *ᵥ ((Ri * L) *ᵥ z) = R *ᵥ (μ • z) := by rw [h]
    rw [mulVec_mulVec, ← Matrix.mul_assoc, h2, Matrix.one_mul,
      mulVec_smul] at h3
    exact h3

/-- C4: on the singular path, with V_l = A B† (SVD factors) and the
shifted operator H̄_l = H_l − E + iAA† + iBB† invertible with inverse G,
a vector (φ̄, ξ̄) = (x, y) solves the stabilized 2×2 block generalized
eigenproblem with eigenvalue λ⁻¹ iff the recovered wavefunction
φ = G(−Bξ̄ − λ⁻¹Aφ̄ + iλ⁻¹Aξ̄ + iBφ̄) satisfies the quadratic relation
with B†φ = φ̄ and λA†φ = ξ̄; moreover the problem reduces to a standard
eigenproblem exactly when the right-hand block matrix is invertible.
No singular matrix is ever inverted: the only inverses used are G
(guarded by SingularLeadError) and the right-hand block inverse (guarded
by the invertibility branch). -/
theorem singular_path_equiv [Fintype ν] [DecidableEq ν] [Fintype ρ]
    [DecidableEq ρ] (H V : Matrix ν ν ℂ) (A B : Matrix ν ρ ℂ)
    (G : Matrix ν ν ℂ) (E : ℝ) (lam : ℂ)
    (hV : V = A * Bᴴ)
    (hG1 : G * shiftedH H E A B = 1) (hG2 : shiftedH H E A B * G = 1)
    (hlam : lam ≠ 0) (x y : ρ → ℂ) :
    ((singLHS A B G *ᵥ Sum.elim x y
        = lam⁻¹ • (singRHS A B G *ᵥ Sum.elim x y)) ↔
      (quadRel H V E lam (singularPhi A B G lam x y) ∧
        Bᴴ *ᵥ singularPhi A B G lam x y = x ∧
        lam • (Aᴴ *ᵥ singularPhi A B G lam x y) = y)) ∧
      (∀ Ri : Matrix (ρ ⊕ ρ) (ρ ⊕ ρ) ℂ,
        Ri * singRHS A B G = 1 → singRHS A B G * Ri = 1 →
        ((singLHS A B G *ᵥ Sum.elim x y
            = lam⁻¹ • (singRHS A B G *ᵥ Sum.elim x y)) ↔
          (Ri * singLHS A B G) *ᵥ Sum.elim x y
            = lam⁻¹ • Sum.elim x y)) := by
  have hAφ : Aᴴ *ᵥ singularPhi A B G lam x y
      = Complex.I • ((Aᴴ * G * B) *ᵥ x) - (Aᴴ * G * B) *ᵥ y
        - lam⁻¹ • ((Aᴴ * G * A) *ᵥ x)
        + (Complex.I * lam⁻¹) • ((Aᴴ * G * A) *ᵥ y) := by
    unfold singularPhi
    simp only [mulVec_add, mulVec_sub, mulVec_smul, mulVec_mulVec,
      ← Matrix.mul_assoc]
  have hBφ : Bᴴ *ᵥ singularPhi A B G lam x y
      = Complex.I • ((Bᴴ * G * B) *ᵥ x) - (Bᴴ * G * B) *ᵥ y
        - lam⁻¹ • ((Bᴴ * G * A) *ᵥ x)
        + (Complex.I * lam⁻¹) • ((Bᴴ * G * A) *ᵥ y) := by
    unfold singularPhi
    simp only [mulVec_add, mulVec_sub, mulVec_smul, mulVec_mulVec,
      ← Matrix.mul_assoc]
  have hd1 : (-(Complex.I • (Aᴴ * G * B) *ᵥ x) + (Aᴴ * G * B) *ᵥ y)
      - lam⁻¹ • (-((Aᴴ * G * A) *ᵥ x)
        + (Complex.I • (Aᴴ * G * A) *ᵥ y - y))
      = lam⁻¹ • y - Aᴴ *ᵥ singularPhi A B G lam x y := by
    rw [hAφ]
    module
  have hd2 : (x - Complex.I • (Bᴴ * G * B) *ᵥ x + (Bᴴ * G * B) *ᵥ y)
      - lam⁻¹ • (-((Bᴴ * G * A) *ᵥ x) + Complex.I • (Bᴴ * G * A) *ᵥ y)
      = x - Bᴴ *ᵥ singularPhi A B G lam x y := by
    rw [hBφ]
    module
  have himp : Bᴴ *ᵥ singularPhi A B G lam x y = x →
      lam • (Aᴴ *ᵥ singularPhi A B G lam x y) = y →
      quadRel H V E lam (singularPhi A B G lam x y) := by
    intro hx hy
    have hAφy : Aᴴ *ᵥ singularPhi A B G lam x y = lam⁻¹ • y := by
      have h0 := congrArg (fun z => lam⁻¹ • z) hy
      simp only [smul_smul, inv_mul_cancel₀ hlam, one_smul] at h0
      exact h0
    have hMφ : shiftedH H E A B *ᵥ singularPhi A B G lam x y
        = Complex.I • (B *ᵥ x) - B *ᵥ y - lam⁻¹ • (A *ᵥ x)
          + (Complex.I * lam⁻¹) • (A *ᵥ y) := by
      unfold singularPhi
      rw [mulVec_mulVec, hG2, one_mulVec]
    have hexp : shiftedH H E A B *ᵥ singularPhi A B G lam x y
        = (H - (E : ℂ) • 1) *ᵥ singularPhi A B G lam x y
          + Complex.I • (A *ᵥ (Aᴴ *ᵥ singularPhi A B G lam x y))
          + Complex.I • (B *ᵥ (Bᴴ *ᵥ singularPhi A B G lam x y)) := by
      unfold shiftedH
      simp only [add_mulVec, smul_mulVec_assoc, ← mulVec_mulVec]
    rw [hexp, hx, hAφy, mulVec_smul] at hMφ
    have hHφ : (H - (E : ℂ) • 1) *ᵥ singularPhi A B G lam x y
        = Complex.I • (B *ᵥ x) - B *ᵥ y - lam⁻¹ • (A *ᵥ x)
          + (Complex.I * lam⁻¹) • (A *ᵥ y)
          - Complex.I • (lam⁻¹ • (A *ᵥ y)) - Complex.I • (B *ᵥ x) := by
      rw [← hMφ]
      module
    unfold quadRel
    rw [hV, conjTranspose_mul, conjTranspose_conjTranspose,
      ← mulVec_mulVec, ← mulVec_mulVec, hx, hAφy, hHφ, mulVec_smul]
    match_scalars <;> field_simp <;> ring
  constructor
  · unfold singLHS singRHS
    rw [fromBlocks_mulVec, fromBlocks_mulVec, smul_sum_elim,
      sum_elim_eq_iff]
    simp only [Sum.elim_comp_inl, Sum.elim_comp_inr, neg_mulVec,
      smul_mulVec_assoc, sub_mulVec, one_mulVec]
    constructor
    · rintro ⟨h1, h2⟩
      have h01 := sub_eq_zero.mpr h1
      rw [hd1] at h01
      have hy' : Aᴴ *ᵥ singularPhi A B G lam x y = lam⁻¹ • y :=
        ((sub_eq_zero.mp h01).symm)
      have hy : lam • (Aᴴ *ᵥ singularPhi A B G lam x y) = y := by
        rw [hy', smul_smul, mul_inv_cancel₀ hlam, one_smul]
      have h02 := sub_eq_zero.mpr h2
      rw [hd2] at h02
      have hx : Bᴴ *ᵥ singularPhi A B G lam x y = x :=
        ((sub_eq_zero.mp h02).symm)
      exact ⟨himp hx hy, hx, hy⟩
    · rintro ⟨-, hx, hy⟩
      have hy' : Aᴴ *ᵥ singularPhi A B G lam x y = lam⁻¹ • y := by
        have h0 := congrArg (fun z => lam⁻¹ • z) hy
        simp only [smul_smul, inv_mul_cancel₀ hlam, one_smul] at h0
        exact h0
      constructor
      · rw [← sub_eq_zero, hd1, hy', sub_self]
      · rw [← sub_eq_zero, hd2, hx, sub_self]
  · intro Ri h1 h2
    exact gevp_reduce_iff (singLHS A B G) (singRHS A B G) Ri h1 h2
      lam⁻¹ (Sum.elim x y)

/-- Witness for C4: the singular-path equivalence instantiated at the
1×1 lead H_l = (0), V_l = A = B = (1), E = 0, λ = 1, where the shifted
operator is 2i and its inverse is (2i)⁻¹. -/
theorem singular_path_equiv_witness :
    ((1 : Matrix (Fin 1) (Fin 1) ℂ)
        = 1 * (1 : Matrix (Fin 1) (Fin 1) ℂ)ᴴ) ∧
      ((2 * Complex.I)⁻¹ • (1 : Matrix (Fin 1) (Fin 1) ℂ))
          * shiftedH (0 : Matrix (Fin 1) (Fin 1) ℂ) 0 (1 : Matrix (Fin 1) (Fin 1) ℂ)
        (1 : Matrix (Fin 1) (Fin 1) ℂ) = 1 ∧
      shiftedH (0 : Matrix (Fin 1) (Fin 1) ℂ) 0 (1 : Matrix (Fin 1) (Fin 1) ℂ)
        (1 : Matrix (Fin 1) (Fin 1) ℂ)
          * ((2 * Complex.I)⁻¹ • (1 : Matrix (Fin 1) (Fin 1) ℂ)) = 1 ∧
      (1 : ℂ) ≠ 0 ∧
      (((singLHS (1 : Matrix (Fin 1) (Fin 1) ℂ) 1
            ((2 * Complex.I)⁻¹ • 1) *ᵥ Sum.elim ![1] ![1]
          = (1 : ℂ)⁻¹ • (singRHS (1 : Matrix (Fin 1) (Fin 1) ℂ) 1
            ((2 * Complex.I)⁻¹ • 1) *ᵥ Sum.elim ![1] ![1])) ↔
        (quadRel (0 : Matrix (Fin 1) (Fin 1) ℂ) 1 0 1
            (singularPhi (1 : Matrix (Fin 1) (Fin 1) ℂ) 1
              ((2 * Complex.I)⁻¹ • 1) 1 ![1] ![1]) ∧
          (1 : Matrix (Fin 1) (Fin 1) ℂ)ᴴ *ᵥ
              singularPhi (1 : Matrix (Fin 1) (Fin 1) ℂ) 1
                ((2 * Complex.I)⁻¹ • 1) 1 ![1] ![1] = ![1] ∧
          (1 : ℂ) • ((1 : Matrix (Fin 1) (Fin 1) ℂ)ᴴ *ᵥ
              singularPhi (1 : Matrix (Fin 1) (Fin 1) ℂ) 1
                ((2 * Complex.I)⁻¹ • 1) 1 ![1] ![1]) = ![1])) ∧
        (∀ Ri : Matrix (Fin 1 ⊕ Fin 1) (Fin 1 ⊕ Fin 1) ℂ,
          Ri * singRHS (1 : Matrix (Fin 1) (Fin 1) ℂ) 1
              ((2 * Complex.I)⁻¹ • 1) = 1 →
          singRHS (1 : Matrix (Fin 1) (Fin 1) ℂ) 1
              ((2 * Complex.I)⁻¹ • 1) * Ri = 1 →
          ((singLHS (1 : Matrix (Fin 1) (Fin 1) ℂ) 1
                ((2 * Complex.I)⁻¹ • 1) *ᵥ Sum.elim ![1] ![1]
              = (1 : ℂ)⁻¹ • (singRHS (1 : Matrix (Fin 1) (Fin 1) ℂ) 1
                ((2 * Complex.I)⁻¹ • 1) *ᵥ Sum.elim ![1] ![1])) ↔
            (Ri * singLHS (1 : Matrix (Fin 1) (Fin 1) ℂ) 1
                ((2 * Complex.I)⁻¹ • 1)) *ᵥ Sum.elim ![1] ![1]
              = (1 : ℂ)⁻¹ • Sum.elim ![1] ![1]))) := by
  have h2I : (2 * Complex.I : ℂ) ≠ 0 := by
    simp [Complex.I_ne_zero]
  have hsh : shiftedH (0 : Matrix (Fin 1) (Fin 1) ℂ) 0 (1 : Matrix (Fin 1) (Fin 1) ℂ)
        (1 : Matrix (Fin 1) (Fin 1) ℂ)
      = (2 * Complex.I) • 1 := by
    unfold shiftedH
    simp only [Matrix.conjTranspose_one, Matrix.mul_one, Complex.ofReal_zero,
      zero_smul, sub_zero, zero_sub, zero_add, neg_zero]
    module
  have hGH1 : ((2 * Complex.I)⁻¹ • (1 : Matrix (Fin 1) (Fin 1) ℂ))
      * shiftedH (0 : Matrix (Fin 1) (Fin 1) ℂ) 0 (1 : Matrix (Fin 1) (Fin 1) ℂ)
        (1 : Matrix (Fin 1) (Fin 1) ℂ) = 1 := by
    rw [hsh, Matrix.smul_mul, Matrix.mul_smul, smul_smul,
      inv_mul_cancel₀ h2I, one_smul, Matrix.one_mul]
  have hGH2 : shiftedH (0 : Matrix (Fin 1) (Fin 1) ℂ) 0 (1 : Matrix (Fin 1) (Fin 1) ℂ)
        (1 : Matrix (Fin 1) (Fin 1) ℂ)
      * ((2 * Complex.I)⁻¹ • (1 : Matrix (Fin 1) (Fin 1) ℂ)) = 1 := by
    rw [hsh, Matrix.smul_mul, Matrix.mul_smul, smul_smul,
      mul_inv_cancel₀ h2I, one_smul, Matrix.one_mul]
  exact ⟨by simp, hGH1, hGH2, one_ne_zero,
    singular_path_equiv (0 : Matrix (Fin 1) (Fin 1) ℂ) 1
      (1 : Matrix (Fin 1) (Fin 1) ℂ) (1 : Matrix (Fin 1) (Fin 1) ℂ)
      ((2 * Complex.I)⁻¹ • 1) 0 1 (by simp) hGH1 hGH2 one_ne_zero
      ![1] ![1]⟩

lemma dotProduct_finset_sum {m α : Type*} [Fintype m] (v : m → ℂ)
    (s : Finset α) (f : α → m → ℂ) :
    v ⬝ᵥ (∑ i ∈ s, f i) = ∑ i ∈ s, v ⬝ᵥ f i := by
  simp only [dotProduct, Finset.sum_apply, Finset.mul_sum]
  rw [Finset.sum_comm]

lemma finset_sum_dotProduct {m α : Type*} [Fintype m] (v : m → ℂ)
    (s : Finset α) (f : α → m → ℂ) :
    (∑ i ∈ s, f i) ⬝ᵥ v = ∑ i ∈ s, f i ⬝ᵥ v := by
  simp only [dotProduct, Finset.sum_apply, Finset.sum_mul]
  rw [Finset.sum_comm]

lemma mulVec_finset_sum {m n α : Type*} [Fintype m] [Fintype n]
    (M : Matrix m n ℂ) (s : Finset α) (f : α → n → ℂ) :
    M *ᵥ (∑ i ∈ s, f i) = ∑ i ∈ s, M *ᵥ f i := by
  funext x
  simp only [Matrix.mulVec, Finset.sum_apply]
  exact dotProduct_finset_sum (M x) s f

/-- Adjoint identity for the sesquilinear form: (Mu)†w = u†(M†w). -/
lemma star_mulVec_dotProduct {m n : Type*} [Fintype m] [Fintype n]
    (M : Matrix m n ℂ) (u : n → ℂ) (w : m → ℂ) :
    star (M *ᵥ u) ⬝ᵥ w = star u ⬝ᵥ (Mᴴ *ᵥ w) := by
  rw [star_mulVec, Matrix.dotProduct_mulVec]

/-- Adjoint identity in the other direction: u†(Mw) = (M†u)†w. -/
lemma star_dotProduct_mulVec {m n : Type*} [Fintype m] [Fintype n]
    (M : Matrix m n ℂ) (u : m → ℂ) (w : n → ℂ) :
    star u ⬝ᵥ (M *ᵥ w) = star (Mᴴ *ᵥ u) ⬝ᵥ w := by
  rw [star_mulVec_dotProduct, conjTranspose_conjTranspose]

/-- Vanishing of all power sums forces each fiber of coefficients to sum
to zero (Vandermonde argument). -/
lemma powsum_fiber_zero {κ : Type*} [Fintype κ] (w z : κ → ℂ) (ζ : ℂ)
    [DecidablePred fun u => z u = ζ]
    (h : ∀ j : ℕ, ∑ u, w u * z u ^ j = 0) :
    ∑ u ∈ Finset.univ.filter (fun u => z u = ζ), w u = 0 := by
  classical
  by_cases hζ : ζ ∈ Finset.image z Finset.univ
  · set T := Finset.image z Finset.univ with hT
    set N := T.card with hN
    set e := T.equivFin with he
    set v : Fin N → ℂ := fun i => (e.symm i : ℂ) with hv
    have hvinj : Function.Injective v := by
      intro i j hij
      apply e.symm.injective
      exact Subtype.ext hij
    have hsumT : ∀ g : ℂ → ℂ, ∑ i : Fin N, g (v i) = ∑ t ∈ T, g t := by
      intro g
      rw [← Finset.sum_coe_sort T g]
      exact Equiv.sum_comp e.symm (fun x : {x // x ∈ T} => g (x : ℂ))
    have hgroup : ∀ j : ℕ,
        ∑ t ∈ T, (∑ u ∈ Finset.univ.filter (fun u => z u = t), w u)
          * t ^ j = 0 := by
      intro j
      have h1 := Finset.sum_fiberwise_of_maps_to
        (fun x (_ : x ∈ Finset.univ) => Finset.mem_image_of_mem z
          (Finset.mem_univ x)) (fun u => w u * z u ^ j)
      rw [← h j, ← h1]
      apply Finset.sum_congr rfl
      intro t ht
      rw [Finset.sum_mul]
      apply Finset.sum_congr rfl
      intro u hu
      rw [Finset.mem_filter] at hu
      rw [hu.2]
    set W : Fin N → ℂ :=
      fun i => ∑ u ∈ Finset.univ.filter (fun u => z u = v i), w u with hW
    have hdet : (Matrix.of fun (j i : Fin N) => v i ^ (j : ℕ)).det ≠ 0 := by
      have : (Matrix.of fun (j i : Fin N) => v i ^ (j : ℕ))
          = (Matrix.vandermonde v)ᵀ := by
        ext j i
        simp [Matrix.vandermonde]
      rw [this, Matrix.det_transpose, Matrix.det_vandermonde]
      rw [Finset.prod_ne_zero_iff]
      intro i _
      rw [Finset.prod_ne_zero_iff]
      intro j hj
      rw [Finset.mem_Ioi] at hj
      exact sub_ne_zero.mpr (fun hc => ne_of_gt hj (hvinj hc))
    have hker : (Matrix.of fun (j i : Fin N) => v i ^ (j : ℕ)) *ᵥ W = 0 := by
      funext j
      simp only [Matrix.mulVec, Matrix.dotProduct, Matrix.of_apply,
        Pi.zero_apply]
      have h2 : ∑ i : Fin N, v i ^ (j : ℕ) * W i
          = ∑ t ∈ T, (∑ u ∈ Finset.univ.filter (fun u => z u = t), w u)
            * t ^ (j : ℕ) := by
        rw [← hsumT (fun t =>
          (∑ u ∈ Finset.univ.filter (fun u => z u = t), w u) * t ^ (j : ℕ))]
        apply Finset.sum_congr rfl
        intro i _
        rw [mul_comm]
      rw [h2, hgroup]
    have hW0 : W = 0 := Matrix.eq_zero_of_mulVec_eq_zero hdet hker
    have hζv : v (e ⟨ζ, hζ⟩) = ζ := by
      rw [hv]
      simp
    have h3 := congrFun hW0 (e ⟨ζ, hζ⟩)
    rw [hW] at h3
    simp only [Pi.zero_apply] at h3
    simp only [hζv] at h3
    convert h3 using 2
  · have hempty : Finset.univ.filter (fun u => z u = ζ) = ∅ := by
      ext u
      simp only [Finset.mem_filter, Finset.mem_univ, true_and,
        Finset.not_mem_empty, iff_false]
      intro hzu
      exact hζ (hzu ▸ Finset.mem_image_of_mem z (Finset.mem_univ u))
    rw [hempty, Finset.sum_empty]

/-- The lead wavefunction in unit cell j of a superposition of Bloch
modes with amplitudes c: ψ_j = Σ_u c_u λ_u^j φ_u (the notebook's
ΦΛ^j q). -/
noncomputable def cellWave {κ : Type*} [Fintype κ] [Fintype ν] (lamf : κ → ℂ)
    (phif : κ → ν → ℂ) (c : κ → ℂ) (j : ℕ) : ν → ℂ :=
  ∑ u, (c u * lamf u ^ j) • phif u

/-- The infinite-lead Schrödinger rows hold for any superposition of
modes satisfying the quadratic relation. -/
lemma cellWave_row {κ : Type*} [Fintype κ] [Fintype ν] [DecidableEq ν]
    (Hl V : Matrix ν ν ℂ) (E : ℝ) (lamf : κ → ℂ) (phif : κ → ν → ℂ)
    (hquad : ∀ u, quadRel Hl V E (lamf u) (phif u)) (c : κ → ℂ) (j : ℕ) :
    V *ᵥ cellWave lamf phif c j
      + (Hl - (E : ℂ) • 1) *ᵥ cellWave lamf phif c (j + 1)
      + Vᴴ *ᵥ cellWave lamf phif c (j + 2) = 0 := by
  unfold cellWave
  rw [mulVec_finset_sum, mulVec_finset_sum, mulVec_finset_sum,
    ← Finset.sum_add_distrib, ← Finset.sum_add_distrib]
  apply Finset.sum_eq_zero
  intro u _
  have hq := hquad u
  unfold quadRel at hq
  simp only [mulVec_smul]
  have hstep : (c u * lamf u ^ j) • (V *ᵥ phif u)
      + (c u * lamf u ^ (j + 1)) • ((Hl - (E : ℂ) • 1) *ᵥ phif u)
      + (c u * lamf u ^ (j + 2)) • (Vᴴ *ᵥ phif u)
      = (c u * lamf u ^ j) • (V *ᵥ phif u
        + lamf u • ((Hl - (E : ℂ) • 1) *ᵥ phif u)
        + lamf u ^ 2 • (Vᴴ *ᵥ phif u)) := by
    simp only [pow_succ]
    module
  rw [hstep, hq, smul_zero]

/-- The current form between two mode superpositions, evaluated between
cells j and j+1. -/
noncomputable def leadCurrent {κ : Type*} [Fintype κ] [Fintype ν]
    (V : Matrix ν ν ℂ) (lamf : κ → ℂ) (phif : κ → ν → ℂ)
    (ca cb : κ → ℂ) (j : ℕ) : ℂ :=
  star (cellWave lamf phif ca j) ⬝ᵥ (Vᴴ *ᵥ cellWave lamf phif cb (j + 1))
    - star (cellWave lamf phif ca (j + 1)) ⬝ᵥ (V *ᵥ cellWave lamf phif cb j)

/-- Current conservation along the lead: the current form between
consecutive cells does not depend on the cell (Hermitian H_l, real E). -/
lemma leadCurrent_const {κ : Type*} [Fintype κ] [Fintype ν]
    [DecidableEq ν] (Hl V : Matrix ν ν ℂ) (E : ℝ) (lamf : κ → ℂ)
    (phif : κ → ν → ℂ)
    (hquad : ∀ u, quadRel Hl V E (lamf u) (phif u))
    (hHl : Hlᴴ = Hl) (ca cb : κ → ℂ) (j : ℕ) :
    leadCurrent V lamf phif ca cb (j + 1)
      = leadCurrent V lamf phif ca cb j := by
  have hherm : (Hl - (E : ℂ) • 1)ᴴ = Hl - (E : ℂ) • 1 := by
    rw [Matrix.conjTranspose_sub, conjTranspose_smul, Matrix.conjTranspose_one,
      hHl, Complex.star_def, Complex.conj_ofReal]
  have hb := cellWave_row Hl V E lamf phif hquad cb j
  have ha := cellWave_row Hl V E lamf phif hquad ca j
  have hVHb : Vᴴ *ᵥ cellWave lamf phif cb (j + 1 + 1)
      = -(V *ᵥ cellWave lamf phif cb j
        + (Hl - (E : ℂ) • 1) *ᵥ cellWave lamf phif cb (j + 1)) := by
    have h2 := eq_neg_of_add_eq_zero_right hb
    exact h2
  have hVHa : Vᴴ *ᵥ cellWave lamf phif ca (j + 1 + 1)
      = -(V *ᵥ cellWave lamf phif ca j
        + (Hl - (E : ℂ) • 1) *ᵥ cellWave lamf phif ca (j + 1)) := by
    have h2 := eq_neg_of_add_eq_zero_right ha
    exact h2
  unfold leadCurrent
  rw [hVHb]
  rw [show star (cellWave lamf phif ca (j + 1 + 1)) ⬝ᵥ
        (V *ᵥ cellWave lamf phif cb (j + 1))
      = star (Vᴴ *ᵥ cellWave lamf phif ca (j + 1 + 1)) ⬝ᵥ
        cellWave lamf phif cb (j + 1) from
    (star_dotProduct_mulVec V _ _).trans (by rw [])]
  rw [hVHa]
  simp only [star_neg, star_add, dotProduct_neg, neg_dotProduct,
    dotProduct_add, add_dotProduct]
  rw [star_mulVec_dotProduct V, star_mulVec_dotProduct (Hl - (E : ℂ) • 1),
    hherm]
  ring

/-- The current form is constant in j, hence always equal to its value
between cell 0 and cell 1. -/
lemma leadCurrent_eq_zeroth {κ : Type*} [Fintype κ] [Fintype ν]
    [DecidableEq ν] (Hl V : Matrix ν ν ℂ) (E : ℝ) (lamf : κ → ℂ)
    (phif : κ → ν → ℂ)
    (hquad : ∀ u, quadRel Hl V E (lamf u) (phif u))
    (hHl : Hlᴴ = Hl) (ca cb : κ → ℂ) (j : ℕ) :
    leadCurrent V lamf phif ca cb j = leadCurrent V lamf phif ca cb 0 := by
  induction j with
  | zero => rfl
  | succ n ih =>
      rw [leadCurrent_const Hl V E lamf phif hquad hHl ca cb n, ih]

/-- Bilinear expansion of the current form as a power sum over mode
pairs. -/
lemma leadCurrent_powsum {κ : Type*} [Fintype κ] [Fintype ν]
    (V : Matrix ν ν ℂ) (lamf : κ → ℂ) (phif : κ → ν → ℂ)
    (ca cb : κ → ℂ) (j : ℕ) :
    leadCurrent V lamf phif ca cb j
      = ∑ p : κ × κ,
        (star (ca p.1) * cb p.2 *
          (lamf p.2 * (star (phif p.1) ⬝ᵥ (Vᴴ *ᵥ phif p.2))
            - star (lamf p.1) * (star (phif p.1) ⬝ᵥ (V *ᵥ phif p.2))))
        * (star (lamf p.1) * lamf p.2) ^ j := by
  unfold leadCurrent cellWave
  rw [star_sum, star_sum, mulVec_finset_sum, mulVec_finset_sum,
    finset_sum_dotProduct, finset_sum_dotProduct]
  simp only [dotProduct_finset_sum]
  simp only [star_smul, star_mul', star_pow, mulVec_smul,
    smul_dotProduct, dotProduct_smul, smul_eq_mul]
  rw [← Finset.sum_sub_distrib]
  simp only [← Finset.sum_sub_distrib]
  rw [Fintype.sum_prod_type]
  apply Finset.sum_congr rfl
  intro u _
  apply Finset.sum_congr rfl
  intro w _
  ring

/-- Modelled from the spec: the scattering solution for incoming channel
a injects unit amplitude in that incoming mode and amplitude Q₊ in each
outgoing mode. -/
noncomputable def channelAmp {π ε ι : Type*} [DecidableEq ι]
    (Q : Matrix (π ⊕ ε) ι ℂ) (a : ι) : (π ⊕ ε) ⊕ ι → ℂ :=
  Sum.elim (fun o => Q o a) (fun c => if c = a then 1 else 0)

lemma col_mul {m l o : Type*} [Fintype l] (M : Matrix m l ℂ)
    (N : Matrix l o ℂ) (b : o) :
    (fun i => (M * N) i b) = M *ᵥ (fun j => N j b) := by
  funext i
  simp [Matrix.mul_apply, Matrix.mulVec, Matrix.dotProduct]

lemma cellWave_channel_zero {π ε ι : Type*} [Fintype π] [Fintype ε]
    [Fintype ι] [DecidableEq ι] [Fintype ν]
    (lamf : (π ⊕ ε) ⊕ ι → ℂ) (phif : (π ⊕ ε) ⊕ ι → ν → ℂ)
    (Q : Matrix (π ⊕ ε) ι ℂ) (b : ι) :
    cellWave lamf phif (channelAmp Q b) 0
      = fun i => (Matrix.of (fun i (o : π ⊕ ε) => phif (Sum.inl o) i)
          * Q) i b + phif (Sum.inr b) i := by
  funext i
  unfold cellWave channelAmp
  simp only [Finset.sum_apply, Pi.smul_apply, smul_eq_mul, pow_zero,
    mul_one, Matrix.mul_apply, Matrix.of_apply]
  rw [Fintype.sum_sum_type]
  simp only [Sum.elim_inl, Sum.elim_inr, ite_mul, one_mul, zero_mul]
  rw [Finset.sum_ite_eq' Finset.univ b
    (fun c => phif (Sum.inr c) i)]
  simp [mul_comm]

lemma cellWave_channel_one {π ε ι : Type*} [Fintype π] [Fintype ε]
    [Fintype ι] [DecidableEq ι] [DecidableEq π] [DecidableEq ε] [Fintype ν]
    (lamf : (π ⊕ ε) ⊕ ι → ℂ) (phif : (π ⊕ ε) ⊕ ι → ν → ℂ)
    (Q : Matrix (π ⊕ ε) ι ℂ) (b : ι) :
    cellWave lamf phif (channelAmp Q b) 1
      = fun i => (Matrix.of (fun i (o : π ⊕ ε) => phif (Sum.inl o) i)
          * Matrix.diagonal (fun o : π ⊕ ε => lamf (Sum.inl o)) * Q) i b
        + lamf (Sum.inr b) * phif (Sum.inr b) i := by
  funext i
  unfold cellWave channelAmp
  simp only [Finset.sum_apply, Pi.smul_apply, smul_eq_mul, pow_one,
    Matrix.mul_apply, Matrix.of_apply, Matrix.mul_diagonal]
  rw [Fintype.sum_sum_type]
  simp only [Sum.elim_inl, Sum.elim_inr, ite_mul, one_mul, zero_mul]
  rw [Finset.sum_ite_eq' Finset.univ b
    (fun c => lamf (Sum.inr c) * phif (Sum.inr c) i)]
  simp only [Finset.mem_univ, if_true]
  congr 1
  apply Finset.sum_congr rfl
  intro o _
  rw [Finset.sum_eq_single o]
  · rw [Matrix.diagonal_apply_eq]
    ring
  · intro x _ hx
    rw [Matrix.diagonal_apply_ne _ hx, mul_zero]
  · intro h
    exact absurd (Finset.mem_univ o) h

/-- The current form between cells 0 and 1 vanishes for solutions of the
stabilized scattering system with a Hermitian scattering region and real
coupling: the region absorbs no current. -/
lemma leadCurrent_zero_of_system {σ ρ π ε ι : Type*}
    [Fintype ν] [DecidableEq ν] [Fintype σ] [DecidableEq σ] [Fintype ρ]
    [Fintype π] [DecidableEq π] [Fintype ε] [DecidableEq ε]
    [Fintype ι] [DecidableEq ι]
    (V : Matrix ν ν ℂ) (Hs : Matrix σ σ ℂ) (P : Matrix ν σ ℂ)
    (A B : Matrix ν ρ ℂ) (E : ℝ)
    (lamf : (π ⊕ ε) ⊕ ι → ℂ) (phif : (π ⊕ ε) ⊕ ι → ν → ℂ)
    (Q : Matrix (π ⊕ ε) ι ℂ) (Ψ : Matrix σ ι ℂ)
    (hHs : Hsᴴ = Hs) (hP : Pᴴ = Pᵀ) (hV : V = A * Bᴴ)
    (hsys : stabScatteringSystem Hs E P B
      (Aᴴ * Matrix.of (fun i (o : π ⊕ ε) => phif (Sum.inl o) i)
        * Matrix.diagonal (fun o : π ⊕ ε => lamf (Sum.inl o)))
      (Bᴴ * Matrix.of (fun i (o : π ⊕ ε) => phif (Sum.inl o) i))
      (Aᴴ * Matrix.of (fun i (c : ι) => phif (Sum.inr c) i)
        * Matrix.diagonal (fun c : ι => lamf (Sum.inr c)))
      (Bᴴ * Matrix.of (fun i (c : ι) => phif (Sum.inr c) i))
      Ψ Q)
    (a b : ι) :
    leadCurrent V lamf phif (channelAmp Q a) (channelAmp Q b) 0 = 0 := by
  obtain ⟨h1, h2⟩ := hsys
  have hVH : Vᴴ = B * Aᴴ := by
    rw [hV, conjTranspose_mul, conjTranspose_conjTranspose]
  set Φp : Matrix ν (π ⊕ ε) ℂ :=
    Matrix.of (fun i o => phif (Sum.inl o) i) with hΦp
  set Φm : Matrix ν ι ℂ :=
    Matrix.of (fun i c => phif (Sum.inr c) i) with hΦm
  set Λp : Matrix (π ⊕ ε) (π ⊕ ε) ℂ :=
    Matrix.diagonal (fun o : π ⊕ ε => lamf (Sum.inl o)) with hΛp
  set Λm : Matrix ι ι ℂ :=
    Matrix.diagonal (fun c : ι => lamf (Sum.inr c)) with hΛm
  have e1 : Pᵀ * (Vᴴ * (Φp * Λp * Q + Φm * Λm))
      = Pᵀ * B * (Aᴴ * Φp * Λp) * Q + Pᵀ * B * (Aᴴ * Φm * Λm) := by
    rw [hVH, Matrix.mul_add, Matrix.mul_add]
    simp only [Matrix.mul_assoc]
  have hR1 : Pᵀ * (Vᴴ * (Φp * Λp * Q + Φm * Λm))
      = -((Hs - (E : ℂ) • 1) * Ψ) := by
    rw [e1, eq_neg_iff_add_eq_zero]
    have h0 := add_eq_zero_iff_eq_neg.mpr h1
    abel_nf at h0 ⊢
    exact h0
  have hR2 : V * (P * Ψ) = V * (Φp * Q + Φm) := by
    have h2' := congrArg (fun X => A * X) h2
    simp only [Matrix.mul_sub] at h2'
    rw [hV, Matrix.mul_add]
    simp only [Matrix.mul_assoc] at h2' ⊢
    rw [add_comm]
    exact sub_eq_iff_eq_add.mp h2'
  have hF2 : ∀ d : ι, Pᵀ *ᵥ (Vᴴ *ᵥ cellWave lamf phif (channelAmp Q d) 1)
      = -((Hs - (E : ℂ) • 1) *ᵥ (fun s => Ψ s d)) := by
    intro d
    rw [cellWave_channel_one lamf phif Q d, ← hΦp, ← hΛp]
    have hcol : (fun i => (Φp * Λp * Q) i d
        + lamf (Sum.inr d) * phif (Sum.inr d) i)
        = (fun i => (Φp * Λp * Q + Φm * Λm) i d) := by
      funext i
      rw [Matrix.add_apply, hΛm, Matrix.mul_diagonal, hΦm]
      simp only [Matrix.of_apply]
      ring
    rw [hcol, ← col_mul Vᴴ (Φp * Λp * Q + Φm * Λm) d,
      ← col_mul Pᵀ (Vᴴ * (Φp * Λp * Q + Φm * Λm)) d, hR1]
    funext s
    rw [Matrix.neg_apply, Pi.neg_apply]
    exact congrArg Neg.neg (congrFun (col_mul (Hs - (E : ℂ) • 1) Ψ d) s)
  have hF1 : ∀ d : ι, V *ᵥ (P *ᵥ (fun s => Ψ s d))
      = V *ᵥ cellWave lamf phif (channelAmp Q d) 0 := by
    intro d
    rw [cellWave_channel_zero lamf phif Q d, ← hΦp]
    have hcol : (fun i => (Φp * Q) i d + phif (Sum.inr d) i)
        = (fun i => (Φp * Q + Φm) i d) := by
      funext i
      rw [Matrix.add_apply, hΦm]
      simp only [Matrix.of_apply]
    rw [hcol, ← col_mul V (Φp * Q + Φm) d, ← col_mul P Ψ d,
      ← col_mul V (P * Ψ) d, hR2]
  have hherm : (Hs - (E : ℂ) • 1)ᴴ = Hs - (E : ℂ) • 1 := by
    rw [Matrix.conjTranspose_sub, Matrix.conjTranspose_smul,
      Matrix.conjTranspose_one, hHs, Complex.star_def, Complex.conj_ofReal]
  have hT1 : star (cellWave lamf phif (channelAmp Q a) 0) ⬝ᵥ
      (Vᴴ *ᵥ cellWave lamf phif (channelAmp Q b) 1)
      = -(star (fun s => Ψ s a) ⬝ᵥ
        ((Hs - (E : ℂ) • 1) *ᵥ (fun s => Ψ s b))) := by
    rw [← star_mulVec_dotProduct V, ← hF1 a, star_mulVec_dotProduct V,
      star_mulVec_dotProduct P, hP, hF2 b, Matrix.dotProduct_neg]
  have hT2 : star (cellWave lamf phif (channelAmp Q a) 1) ⬝ᵥ
      (V *ᵥ cellWave lamf phif (channelAmp Q b) 0)
      = -(star (fun s => Ψ s a) ⬝ᵥ
        ((Hs - (E : ℂ) • 1) *ᵥ (fun s => Ψ s b))) := by
    rw [← hF1 b, star_dotProduct_mulVec V, star_dotProduct_mulVec P, hP,
      hF2 a, star_neg, Matrix.neg_dotProduct, star_mulVec_dotProduct, hherm]
  unfold leadCurrent
  simp only [Nat.zero_add, zero_add]
  rw [hT1, hT2, sub_self]

/-- The sesquilinear current bracket written with the velocity operator. -/
lemma bracket_eq_dot [Fintype ν] (V : Matrix ν ν ℂ) (lam : ℂ)
    (φ ψ : ν → ℂ) :
    lam * (star φ ⬝ᵥ (Vᴴ *ᵥ ψ)) - lam⁻¹ * (star φ ⬝ᵥ (V *ᵥ ψ))
      = star φ ⬝ᵥ ((lam • Vᴴ - lam⁻¹ • V) *ᵥ ψ) := by
  simp [Matrix.sub_mulVec, Matrix.smul_mulVec_assoc, Matrix.dotProduct_sub,
    Matrix.dotProduct_smul, smul_eq_mul]

/-- The diagonal current bracket of a mode is −i times its velocity. -/
lemma neg_I_mul_velocity [Fintype ν] (V : Matrix ν ν ℂ) (lam : ℂ)
    (φ : ν → ℂ) :
    -Complex.I * velocity V lam φ
      = lam * (star φ ⬝ᵥ (Vᴴ *ᵥ φ)) - lam⁻¹ * (star φ ⬝ᵥ (V *ᵥ φ)) := by
  unfold velocity
  rw [← bracket_eq_dot]
  linear_combination (lam⁻¹ * (star φ ⬝ᵥ (V *ᵥ φ))
    - lam * (star φ ⬝ᵥ (Vᴴ *ᵥ φ))) * Complex.I_sq

/-- A unimodular complex number times its conjugate is one. -/
lemma star_mul_self_of_abs_one {z : ℂ} (h : Complex.abs z = 1) :
    star z * z = 1 := by
  rw [Complex.star_def, mul_comm, Complex.mul_conj, Complex.normSq_eq_abs,
    h, one_pow, Complex.ofReal_one]

/-- Balancing outgoing flux −i·T against incoming flux i·δ forces T = δ. -/
lemma unit_flux_balance (T δ : ℂ)
    (h : T * -Complex.I + δ * Complex.I = 0) : T = δ := by
  linear_combination Complex.I * h + (T - δ) * Complex.I_sq

/-- C7: for a lossless system (Hermitian lead and region Hamiltonians, real
projection), with modes satisfying the quadratic relation, unit-modulus
propagating eigenvalues (outgoing velocity +1, incoming velocity −1),
strictly contracting evanescent eigenvalues, current-orthogonal degenerate
propagating modes, and a solution of the stabilized scattering system, the
propagating-to-propagating scattering matrix is unitary: SᴴS = 1. -/
theorem scattering_matrix_unitary {σ ρ π ε ι : Type*}
    [Fintype ν] [DecidableEq ν] [Fintype σ] [DecidableEq σ] [Fintype ρ]
    [Fintype π] [DecidableEq π] [Fintype ε] [DecidableEq ε]
    [Fintype ι] [DecidableEq ι]
    (Hl V : Matrix ν ν ℂ) (Hs : Matrix σ σ ℂ) (P : Matrix ν σ ℂ)
    (A B : Matrix ν ρ ℂ) (E : ℝ)
    (lamf : (π ⊕ ε) ⊕ ι → ℂ) (phif : (π ⊕ ε) ⊕ ι → ν → ℂ)
    (Q : Matrix (π ⊕ ε) ι ℂ) (Ψ : Matrix σ ι ℂ)
    (hHl : Hlᴴ = Hl) (hHs : Hsᴴ = Hs) (hP : Pᴴ = Pᵀ) (hV : V = A * Bᴴ)
    (hquad : ∀ u, quadRel Hl V E (lamf u) (phif u))
    (hpropout : ∀ m : π, Complex.abs (lamf (Sum.inl (Sum.inl m))) = 1)
    (hpropin : ∀ c : ι, Complex.abs (lamf (Sum.inr c)) = 1)
    (hev : ∀ e : ε, Complex.abs (lamf (Sum.inl (Sum.inr e))) < 1)
    (hvout : ∀ m : π, velocity V (lamf (Sum.inl (Sum.inl m)))
      (phif (Sum.inl (Sum.inl m))) = 1)
    (hvin : ∀ c : ι, velocity V (lamf (Sum.inr c)) (phif (Sum.inr c)) = -1)
    (horth : ∀ u u', u ≠ u' → lamf u = lamf u' →
      Complex.abs (lamf u) = 1 → Complex.abs (lamf u') = 1 →
      star (phif u) ⬝ᵥ ((lamf u • Vᴴ - (lamf u)⁻¹ • V) *ᵥ phif u') = 0)
    (hsys : stabScatteringSystem Hs E P B
      (Aᴴ * Matrix.of (fun i (o : π ⊕ ε) => phif (Sum.inl o) i)
        * Matrix.diagonal (fun o : π ⊕ ε => lamf (Sum.inl o)))
      (Bᴴ * Matrix.of (fun i (o : π ⊕ ε) => phif (Sum.inl o) i))
      (Aᴴ * Matrix.of (fun i (c : ι) => phif (Sum.inr c) i)
        * Matrix.diagonal (fun c : ι => lamf (Sum.inr c)))
      (Bᴴ * Matrix.of (fun i (c : ι) => phif (Sum.inr c) i))
      Ψ Q) :
    (sMatrix Q Sum.inl)ᴴ * sMatrix Q Sum.inl = 1 := by
  classical
  have habs : ∀ u : (π ⊕ ε) ⊕ ι, Complex.abs (lamf u) ≤ 1 := by
    rintro ((m | e) | c)
    · exact le_of_eq (hpropout m)
    · exact (hev e).le
    · exact le_of_eq (hpropin c)
  ext a b
  rw [Matrix.mul_apply, Matrix.one_apply]
  simp only [Matrix.conjTranspose_apply, sMatrix, Matrix.submatrix_apply,
    id_eq]
  have hW0 := leadCurrent_zero_of_system V Hs P A B E lamf phif Q Ψ
    hHs hP hV hsys a b
  have hps : ∀ j : ℕ, ∑ p : ((π ⊕ ε) ⊕ ι) × ((π ⊕ ε) ⊕ ι),
      (star (channelAmp Q a p.1) * channelAmp Q b p.2 *
        (lamf p.2 * (star (phif p.1) ⬝ᵥ (Vᴴ *ᵥ phif p.2))
          - star (lamf p.1) * (star (phif p.1) ⬝ᵥ (V *ᵥ phif p.2))))
      * (star (lamf p.1) * lamf p.2) ^ j = 0 := by
    intro j
    rw [← leadCurrent_powsum V lamf phif (channelAmp Q a)
        (channelAmp Q b) j,
      leadCurrent_eq_zeroth Hl V E lamf phif hquad hHl (channelAmp Q a)
        (channelAmp Q b) j]
    exact hW0
  have hfilter := powsum_fiber_zero
    (fun p : ((π ⊕ ε) ⊕ ι) × ((π ⊕ ε) ⊕ ι) =>
      star (channelAmp Q a p.1) * channelAmp Q b p.2 *
        (lamf p.2 * (star (phif p.1) ⬝ᵥ (Vᴴ *ᵥ phif p.2))
          - star (lamf p.1) * (star (phif p.1) ⬝ᵥ (V *ᵥ phif p.2))))
    (fun p => star (lamf p.1) * lamf p.2) 1 hps
  simp only [Finset.sum_filter, Fintype.sum_prod_type] at hfilter
  have e2 : ∀ u : (π ⊕ ε) ⊕ ι,
      (∑ v : (π ⊕ ε) ⊕ ι, if star (lamf u) * lamf v = 1 then
        star (channelAmp Q a u) * channelAmp Q b v *
          (lamf v * (star (phif u) ⬝ᵥ (Vᴴ *ᵥ phif v))
            - star (lamf u) * (star (phif u) ⬝ᵥ (V *ᵥ phif v))) else 0)
      = if Complex.abs (lamf u) = 1 then
          star (channelAmp Q a u) * channelAmp Q b u *
            (-Complex.I * velocity V (lamf u) (phif u)) else 0 := by
    intro u
    by_cases hu : Complex.abs (lamf u) = 1
    · rw [if_pos hu]
      have hsu : star (lamf u) * lamf u = 1 := star_mul_self_of_abs_one hu
      have hinv : (lamf u)⁻¹ = star (lamf u) :=
        inv_eq_of_mul_eq_one_left hsu
      have hne0 : star (lamf u) ≠ 0 := by
        intro h0
        have h1 := hsu
        rw [h0, zero_mul] at h1
        exact one_ne_zero h1.symm
      refine (Finset.sum_eq_single u ?_ ?_).trans ?_
      · intro u' _ hne
        by_cases hp : star (lamf u) * lamf u' = 1
        · rw [if_pos hp]
          have hl : lamf u' = lamf u :=
            (mul_left_cancel₀ hne0 (hsu.trans hp.symm)).symm
          have habs' : Complex.abs (lamf u') = 1 := by rw [hl, hu]
          rw [hl, ← hinv, bracket_eq_dot,
            horth u u' hne.symm hl.symm hu habs', mul_zero]
        · rw [if_neg hp]
      · intro h
        exact absurd (Finset.mem_univ u) h
      · rw [if_pos hsu, neg_I_mul_velocity, hinv]
    · rw [if_neg hu]
      refine Finset.sum_eq_zero fun u' _ => ?_
      rw [if_neg]
      intro hp
      apply hu
      have h1 : Complex.abs (lamf u) * Complex.abs (lamf u') = 1 := by
        have h2 := congrArg Complex.abs hp
        rwa [AbsoluteValue.map_mul, AbsoluteValue.map_one, Complex.star_def,
          Complex.abs_conj] at h2
      have h3 := habs u
      have h4 := habs u'
      have h5 := AbsoluteValue.nonneg Complex.abs (lamf u)
      have h6 := AbsoluteValue.nonneg Complex.abs (lamf u')
      exact le_antisymm h3 (by nlinarith)
  have hdiag : (∑ u : (π ⊕ ε) ⊕ ι,
      if Complex.abs (lamf u) = 1 then
        star (channelAmp Q a u) * channelAmp Q b u *
          (-Complex.I * velocity V (lamf u) (phif u)) else 0) = 0 :=
    (Finset.sum_congr rfl fun u _ => (e2 u).symm).trans hfilter
  simp only [Fintype.sum_sum_type] at hdiag
  have hm : (∑ m : π, if Complex.abs (lamf (Sum.inl (Sum.inl m))) = 1 then
      star (channelAmp Q a (Sum.inl (Sum.inl m)))
        * channelAmp Q b (Sum.inl (Sum.inl m)) *
        (-Complex.I * velocity V (lamf (Sum.inl (Sum.inl m)))
          (phif (Sum.inl (Sum.inl m)))) else 0)
      = (∑ m : π, star (Q (Sum.inl m) a) * Q (Sum.inl m) b)
        * (-Complex.I) := by
    rw [Finset.sum_mul]
    refine Finset.sum_congr rfl fun m _ => ?_
    rw [if_pos (hpropout m), hvout m]
    simp [channelAmp]
  have he : (∑ e : ε, if Complex.abs (lamf (Sum.inl (Sum.inr e))) = 1 then
      star (channelAmp Q a (Sum.inl (Sum.inr e)))
        * channelAmp Q b (Sum.inl (Sum.inr e)) *
        (-Complex.I * velocity V (lamf (Sum.inl (Sum.inr e)))
          (phif (Sum.inl (Sum.inr e)))) else 0) = 0 :=
    Finset.sum_eq_zero fun e _ => if_neg (ne_of_lt (hev e))
  have hc : (∑ c : ι, if Complex.abs (lamf (Sum.inr c)) = 1 then
      star (channelAmp Q a (Sum.inr c)) * channelAmp Q b (Sum.inr c) *
        (-Complex.I * velocity V (lamf (Sum.inr c)) (phif (Sum.inr c)))
      else 0)
      = (if a = b then (1 : ℂ) else 0) * Complex.I := by
    have hterm : ∀ c : ι, (if Complex.abs (lamf (Sum.inr c)) = 1 then
        star (channelAmp Q a (Sum.inr c)) * channelAmp Q b (Sum.inr c) *
          (-Complex.I * velocity V (lamf (Sum.inr c)) (phif (Sum.inr c)))
        else 0)
        = if c = a then ((if c = b then (1 : ℂ) else 0) * Complex.I)
          else 0 := by
      intro c
      rw [if_pos (hpropin c), hvin c]
      by_cases hca : c = a <;> by_cases hcb : c = b <;>
        simp [channelAmp, hca, hcb]
    refine (Finset.sum_congr rfl fun c _ => hterm c).trans ?_
    rw [Finset.sum_ite_eq']
    simp only [Finset.mem_univ, if_true]
  rw [hm, he, hc, add_zero] at hdiag
  exact unit_flux_balance _ _ hdiag

/-- Mode eigenvalues of the witness system: one outgoing mode −i, no
evanescent modes, one incoming mode i. -/
noncomputable def witLam : (Fin 1 ⊕ Fin 0) ⊕ Fin 1 → ℂ :=
  Sum.elim (Sum.elim (fun _ => -Complex.I) (fun e => Fin.elim0 e))
    (fun _ => Complex.I)

/-- Mode wavefunctions of the witness system, unit-current normalized. -/
noncomputable def witPhi : (Fin 1 ⊕ Fin 0) ⊕ Fin 1 → Fin 1 → ℂ :=
  fun _ _ => (((Real.sqrt 2)⁻¹ : ℝ) : ℂ)

/-- Scattering-region wavefunction of the witness system. -/
noncomputable def witPsi : Matrix (Fin 1) (Fin 1) ℂ :=
  Matrix.of fun _ _ => ((Real.sqrt 2 : ℝ) : ℂ)

/-- Extended scattering matrix of the witness system. -/
def witQ : Matrix (Fin 1 ⊕ Fin 0) (Fin 1) ℂ :=
  Matrix.of fun _ _ => 1

lemma wit_quad : ∀ u, quadRel (0 : Matrix (Fin 1) (Fin 1) ℂ) 1 0
    (witLam u) (witPhi u) := by
  rintro ((m | e) | c)
  · unfold quadRel
    funext x
    simp only [witLam, witPhi, Sum.elim_inl, Complex.ofReal_zero, zero_smul,
      sub_zero, Matrix.zero_mulVec, smul_zero, add_zero,
      Matrix.conjTranspose_one, Matrix.one_mulVec, Pi.add_apply,
      Pi.smul_apply, Pi.zero_apply, smul_eq_mul]
    linear_combination (((Real.sqrt 2)⁻¹ : ℝ) : ℂ) * Complex.I_sq
  · exact e.elim0
  · unfold quadRel
    funext x
    simp only [witLam, witPhi, Sum.elim_inr, Complex.ofReal_zero, zero_smul,
      sub_zero, Matrix.zero_mulVec, smul_zero, add_zero,
      Matrix.conjTranspose_one, Matrix.one_mulVec, Pi.add_apply,
      Pi.smul_apply, Pi.zero_apply, smul_eq_mul]
    linear_combination (((Real.sqrt 2)⁻¹ : ℝ) : ℂ) * Complex.I_sq

lemma wit_vout : ∀ m : Fin 1, velocity (1 : Matrix (Fin 1) (Fin 1) ℂ)
    (witLam (Sum.inl (Sum.inl m))) (witPhi (Sum.inl (Sum.inl m))) = 1 := by
  intro m
  have hInv : (-Complex.I)⁻¹ = Complex.I := by
    rw [inv_neg, Complex.inv_I, neg_neg]
  have h2c : (((Real.sqrt 2)⁻¹ : ℝ) : ℂ) * (((Real.sqrt 2)⁻¹ : ℝ) : ℂ)
      = 2⁻¹ := by
    rw [← Complex.ofReal_mul, ← mul_inv,
      Real.mul_self_sqrt (by norm_num : (0:ℝ) ≤ 2)]
    norm_num
  unfold velocity witLam witPhi
  simp only [Sum.elim_inl, Matrix.conjTranspose_one, hInv,
    Matrix.dotProduct, Matrix.mulVec, Fin.sum_univ_one, Matrix.sub_apply,
    Matrix.smul_apply, Matrix.one_apply_eq, Pi.star_apply,
    Complex.star_def, Complex.conj_ofReal, smul_eq_mul, mul_one]
  linear_combination (-2 * Complex.I ^ 2) * h2c - Complex.I_sq

lemma wit_vin : ∀ c : Fin 1, velocity (1 : Matrix (Fin 1) (Fin 1) ℂ)
    (witLam (Sum.inr c)) (witPhi (Sum.inr c)) = -1 := by
  intro c
  have h2c : (((Real.sqrt 2)⁻¹ : ℝ) : ℂ) * (((Real.sqrt 2)⁻¹ : ℝ) : ℂ)
      = 2⁻¹ := by
    rw [← Complex.ofReal_mul, ← mul_inv,
      Real.mul_self_sqrt (by norm_num : (0:ℝ) ≤ 2)]
    norm_num
  unfold velocity witLam witPhi
  simp only [Sum.elim_inr, Matrix.conjTranspose_one, Complex.inv_I,
    Matrix.dotProduct, Matrix.mulVec, Fin.sum_univ_one, Matrix.sub_apply,
    Matrix.smul_apply, Matrix.one_apply_eq, Pi.star_apply,
    Complex.star_def, Complex.conj_ofReal, smul_eq_mul, mul_one]
  linear_combination (2 * Complex.I ^ 2) * h2c + Complex.I_sq

lemma wit_orth : ∀ u u', u ≠ u' → witLam u = witLam u' →
    Complex.abs (witLam u) = 1 → Complex.abs (witLam u') = 1 →
    star (witPhi u) ⬝ᵥ ((witLam u • (1 : Matrix (Fin 1) (Fin 1) ℂ)ᴴ
      - (witLam u)⁻¹ • 1) *ᵥ witPhi u') = 0 := by
  rintro ((m | e) | c) ((m' | e') | c') hne hlam h1 h2
  · exact absurd (by rw [Subsingleton.elim m m']) hne
  · exact e'.elim0
  · simp only [witLam, Sum.elim_inl, Sum.elim_inr, Complex.ext_iff,
      Complex.neg_im, Complex.I_im, Complex.neg_re, Complex.I_re] at hlam
    norm_num at hlam
  · exact e.elim0
  · exact e.elim0
  · exact e.elim0
  · simp only [witLam, Sum.elim_inl, Sum.elim_inr, Complex.ext_iff,
      Complex.neg_im, Complex.I_im, Complex.neg_re, Complex.I_re] at hlam
    norm_num at hlam
  · exact e'.elim0
  · exact absurd (by rw [Subsingleton.elim c c']) hne

lemma wit_sys : stabScatteringSystem (0 : Matrix (Fin 1) (Fin 1) ℂ) 0
    (1 : Matrix (Fin 1) (Fin 1) ℂ) (1 : Matrix (Fin 1) (Fin 1) ℂ)
    ((1 : Matrix (Fin 1) (Fin 1) ℂ)ᴴ
      * Matrix.of (fun i (o : Fin 1 ⊕ Fin 0) => witPhi (Sum.inl o) i)
      * Matrix.diagonal (fun o : Fin 1 ⊕ Fin 0 => witLam (Sum.inl o)))
    ((1 : Matrix (Fin 1) (Fin 1) ℂ)ᴴ
      * Matrix.of (fun i (o : Fin 1 ⊕ Fin 0) => witPhi (Sum.inl o) i))
    ((1 : Matrix (Fin 1) (Fin 1) ℂ)ᴴ
      * Matrix.of (fun i (c : Fin 1) => witPhi (Sum.inr c) i)
      * Matrix.diagonal (fun c : Fin 1 => witLam (Sum.inr c)))
    ((1 : Matrix (Fin 1) (Fin 1) ℂ)ᴴ
      * Matrix.of (fun i (c : Fin 1) => witPhi (Sum.inr c) i))
    witPsi witQ := by
  constructor
  · ext i j
    have hi := Fin.eq_zero i
    have hj := Fin.eq_zero j
    subst hi
    subst hj
    simp [witQ, witPsi, witPhi, witLam, Matrix.mul_apply,
      Matrix.mul_diagonal, Fintype.sum_sum_type, Fin.sum_univ_one,
      Complex.ofReal_zero]
  · ext i j
    have hi := Fin.eq_zero i
    have hj := Fin.eq_zero j
    subst hi
    subst hj
    have hr : Real.sqrt 2 - (Real.sqrt 2)⁻¹ = (Real.sqrt 2)⁻¹ := by
      have h2 := Real.mul_self_sqrt (by norm_num : (0:ℝ) ≤ 2)
      have hne : Real.sqrt 2 ≠ 0 := by positivity
      field_simp
      linarith [h2]
    simp [witQ, witPsi, witPhi, Matrix.mul_apply, Fintype.sum_sum_type,
      Fin.sum_univ_one, Matrix.sub_apply]
    exact_mod_cast hr

/-- Closed witness for the unitarity theorem: the explicit one-channel
chain at the band center has a solvable stabilized system and its
scattering matrix satisfies SᴴS = 1. -/
theorem scattering_matrix_unitary_witness :
    (sMatrix witQ Sum.inl)ᴴ * sMatrix witQ Sum.inl = 1 :=
  scattering_matrix_unitary (0 : Matrix (Fin 1) (Fin 1) ℂ)
    (1 : Matrix (Fin 1) (Fin 1) ℂ) (0 : Matrix (Fin 1) (Fin 1) ℂ)
    (1 : Matrix (Fin 1) (Fin 1) ℂ) (1 : Matrix (Fin 1) (Fin 1) ℂ)
    (1 : Matrix (Fin 1) (Fin 1) ℂ) 0 witLam witPhi witQ witPsi
    (by simp) (by simp) (by simp) (by simp)
    wit_quad
    (by intro m; simp [witLam])
    (by intro c; simp [witLam])
    (fun e => e.elim0)
    wit_vout wit_vin wit_orth wit_sys

end KwantScattering
